import Mathlib

/-!
Shallow embedding of the OSPF-Gaming routing daemon (Python sources:
`metrics.py`, `algorithm.py`, `ospf_gaming_daemon.py`, `route_manager.py`)
and proofs of the specification claims about it.

Modelling conventions:
* Python floats are modelled as rationals `ℚ`; a float that may be
  non-finite (infinity, as produced by `float("inf")`) is modelled as
  `Option ℚ` with `none` standing for the non-finite value.
* Python dicts are modelled as association lists (`List (key × value)`)
  with first-match lookup; insertion (`d[k] = v`) replaces the value in
  place when the key is present and appends otherwise, which preserves
  the dict's iteration order exactly as CPython does.
* Python sets of strings are modelled as `Finset String`.
* Loops whose termination Python does not guarantee (the Dijkstra main
  loop and the back-trace in `_first_hop`) take a fuel parameter and
  return `none` when the fuel runs out, so every theorem about their
  result is a statement about every terminating execution.
-/

namespace OspfGaming

/-! ## Association-list dictionaries (CPython `dict` semantics) -/

/-- Model of `d.get(k)`: first-match lookup in an association list. -/
def dlookup {α : Type} (l : List (String × α)) (k : String) : Option α :=
  (l.find? (fun p => p.1 == k)).map (fun p => p.2)

/-- Model of `d[k] = v`: replace in place if the key is present, else append
(CPython dict assignment keeps the original key position). -/
def dinsert {α : Type} (l : List (String × α)) (k : String) (v : α) :
    List (String × α) :=
  if (l.find? (fun p => p.1 == k)).isSome then
    l.map (fun p => if p.1 == k then (k, v) else p)
  else l ++ [(k, v)]

/-- Model of `d.pop(k, None)` / `del d[k]`: remove every binding of `k`. -/
def derase {α : Type} (l : List (String × α)) (k : String) :
    List (String × α) :=
  l.filter (fun p => ¬ p.1 == k)

/-- Keys of an association list, in iteration order. -/
def dkeys {α : Type} (l : List (String × α)) : List String :=
  l.map (fun p => p.1)

/-- Build a dict from a key/value list, later bindings winning
(`{k: f(v) for k, v in pairs}`). -/
def buildDict {α : Type} (l : List (String × α)) : List (String × α) :=
  l.foldl (fun acc p => dinsert acc p.1 p.2) []

/-- Python `==` on dicts: order-insensitive comparison of the key→value
maps, via lookups in both directions. -/
def dictLe {α : Type} [BEq α] (a b : List (String × α)) : Bool :=
  a.all (fun p => dlookup b p.1 == some p.2)

/-- Python dict equality (`d1 == d2`). -/
def dictEq {α : Type} [BEq α] (a b : List (String × α)) : Bool :=
  dictLe a b && dictLe b a

/-! ## `metrics.py`: QoS data model and `compute_qos_cost` -/

/-- Structure `QoSMetrics` (metrics.py). `none` models a non-finite float. -/
structure QoSMetrics where
  latency_ms : Option ℚ
  jitter_ms : Option ℚ
  loss_percent : ℚ
  bandwidth_mbps : Option ℚ

/-- Structure `MetricWeights` (metrics.py). -/
structure MetricWeights where
  latency : ℚ
  jitter : ℚ
  loss : ℚ
  bandwidth : ℚ

/-- Structure `NormalizationBounds` (metrics.py). -/
structure NormalizationBounds where
  latency_ms : ℚ
  jitter_ms : ℚ
  loss_percent : ℚ
  bandwidth_mbps : ℚ

/-- Python's `round` to an integer: banker's rounding (round half to
even), exact on our rational model of floats. -/
def pyRoundInt (x : ℚ) : ℤ :=
  let n : ℤ := ⌊x⌋
  let f : ℚ := x - n
  if f < 1 / 2 then n
  else if 1 / 2 < f then n + 1
  else if n % 2 = 0 then n else n + 1

/-- Python's `round(x, 3)`. -/
def pyRound3 (x : ℚ) : ℚ :=
  ((pyRoundInt (x * 1000) : ℚ)) / 1000

/-- The local `latency_term` of `compute_qos_cost`: a non-finite
latency clamps to 1, exactly as the `math.isfinite` guard does. -/
def latencyTermOf (metrics : QoSMetrics) (bounds : NormalizationBounds) : ℚ :=
  match metrics.latency_ms with
  | some q => min (q / bounds.latency_ms) 1
  | none => 1

/-- The local `jitter_term` of `compute_qos_cost`. -/
def jitterTermOf (metrics : QoSMetrics) (bounds : NormalizationBounds) : ℚ :=
  match metrics.jitter_ms with
  | some q => min (q / bounds.jitter_ms) 1
  | none => 1

/-- The local `loss_term` of `compute_qos_cost`. -/
def lossTermOf (metrics : QoSMetrics) (bounds : NormalizationBounds) : ℚ :=
  min (metrics.loss_percent / bounds.loss_percent) 1

/-- The local `bandwidth_term` of `compute_qos_cost`. -/
def bandwidthTermOf (metrics : QoSMetrics) (bounds : NormalizationBounds) : ℚ :=
  match metrics.bandwidth_mbps with
  | some bw => if bw ≤ 0 then 1 else 1 - min (bw / bounds.bandwidth_mbps) 1
  | none => 1

/-- Function `compute_qos_cost` (metrics.py, lines 132–155).  The codomain is
`Option ℚ` because the Python function's type is `float`, which admits
infinity; `none` would model returning `float("inf")`.  Every return
expression of the source produces a finite value. -/
def compute_qos_cost (metrics : QoSMetrics) (weights : MetricWeights)
    (bounds : NormalizationBounds) : Option ℚ :=
  let weight_sum := weights.latency + weights.jitter + weights.loss + weights.bandwidth
  if weight_sum ≤ 0 then some 100
  else
    let score :=
      (weights.latency * latencyTermOf metrics bounds +
        weights.jitter * jitterTermOf metrics bounds +
        weights.loss * lossTermOf metrics bounds +
        weights.bandwidth * bandwidthTermOf metrics bounds) / weight_sum
    some (pyRound3 (score * 100))

/-! ## `ospf_gaming_daemon.py`: `_calculate_cost` -/

/-- The configurable weight/normalization fields of `OSPFGamingDaemon`
read by `_calculate_cost` (`weights_percent` and `normalization`). -/
structure CostConfig where
  weight_latency : ℚ
  weight_jitter : ℚ
  weight_loss : ℚ
  weight_bandwidth : ℚ
  latency_max_ms : ℚ
  jitter_max_ms : ℚ
  bandwidth_ref_mbps : ℚ

/-- Method `OSPFGamingDaemon._calculate_cost` (ospf_gaming_daemon.py,
lines 335–368).  `none` on an argument models a non-finite float;
`none` on the result models the returned `float("inf")`. -/
def calculateCost (cfg : CostConfig) (latency jitter : Option ℚ)
    (loss : ℚ) (bandwidth : Option ℚ) : Option ℚ :=
  match latency, jitter with
  | some lat, some jit =>
    if 100 ≤ loss then none
    else
      let lat_norm := min 1 (max 0 (lat / cfg.latency_max_ms))
      let jit_norm := min 1 (max 0 (jit / cfg.jitter_max_ms))
      let loss_norm := min 1 (max 0 (loss / 100))
      let bw_norm : ℚ :=
        match bandwidth with
        | some bw => if 0 < bw then 1 - min 1 (max 0 (bw / cfg.bandwidth_ref_mbps)) else 1
        | none => 1
      some (lat_norm * cfg.weight_latency + jit_norm * cfg.weight_jitter +
        loss_norm * cfg.weight_loss + bw_norm * cfg.weight_bandwidth)
  | _, _ => none

/-! ## `algorithm.py`: Dijkstra and first-hop extraction

Nodes are modelled as `ℕ` (the Python code is generic over hashable
node identifiers; only equality and the heap's tie-breaking order on
nodes are used).  A graph is an association list mirroring the Python
dict `node → {neighbour → weight}`; an edge weight of `none` models a
non-finite float (such a weight never relaxes any distance, exactly as
`inf` never satisfies the strict `<` test in the source). -/

abbrev Node := ℕ

abbrev Graph := List (Node × List (Node × Option ℚ))

/-- Model of `graph.get(current_node, {})`. -/
def adjOf (g : Graph) (n : Node) : List (Node × Option ℚ) :=
  ((g.find? (fun p => p.1 == n)).map (fun p => p.2)).getD []

/-- The key list of the graph dict (`for destination in graph`). -/
def nodesOf (g : Graph) : List Node :=
  g.map (fun p => p.1)

/-- Mutable state of `calculate_shortest_paths`:  `distances` and
`previous` are the dicts (as total functions: a key absent from the
Python dict reads as `inf` / `None`, which is exactly the default the
source supplies via `.get`), `queue` is the content of the heap, and
`visited` the visited set. -/
structure DijkstraState where
  dist : Node → Option ℚ
  prev : Node → Option Node
  queue : List (ℚ × Node)
  visited : List Node

/-- Strict lexicographic order on heap entries: `heapq` pops the least
`(distance, node)` tuple. -/
def entryLt (a b : ℚ × Node) : Prop :=
  a.1 < b.1 ∨ (a.1 = b.1 ∧ a.2 < b.2)

instance : DecidablePred (fun p : (ℚ × Node) × (ℚ × Node) => entryLt p.1 p.2) :=
  fun p => by unfold entryLt; infer_instance

instance (a b : ℚ × Node) : Decidable (entryLt a b) := by
  unfold entryLt; infer_instance

/-- Model of `heapq.heappop`: remove and return the least entry. -/
def popMin (q : List (ℚ × Node)) : Option ((ℚ × Node) × List (ℚ × Node)) :=
  match q with
  | [] => none
  | x :: xs =>
    let m := xs.foldl (fun best y => if entryLt y best then y else best) x
    some (m, q.erase m)

/-- Python `current_distance + weight < distances.get(neighbour, inf)`:
a non-finite candidate (left `none`) never passes; a stored `inf`
(right `none`) is beaten by any finite candidate. -/
def ltDist (cand : ℚ) (stored : Option ℚ) : Bool :=
  match stored with
  | none => true
  | some s => cand < s

/-- The relaxation of one outgoing edge (the body of the `for
neighbour, weight in graph.get(current_node, {}).items()` loop). -/
def relaxEdge (cur : Node) (curDist : ℚ) (st : DijkstraState)
    (edge : Node × Option ℚ) : DijkstraState :=
  match edge.2 with
  | none => st
  | some w =>
    let dvc := curDist + w
    if ltDist dvc (st.dist edge.1) then
      { st with
        dist := fun n => if n = edge.1 then some dvc else st.dist n
        prev := fun n => if n = edge.1 then some cur else st.prev n
        queue := (dvc, edge.1) :: st.queue }
    else st

/-- The `while priority_queue:` loop, fuelled.  `none` models an
execution that did not terminate within the given fuel. -/
def dijkstraLoop (g : Graph) : ℕ → DijkstraState → Option DijkstraState
  | 0, st => if st.queue.isEmpty then some st else none
  | fuel + 1, st =>
    match popMin st.queue with
    | none => some st
    | some ((d, cur), rest) =>
      if cur ∈ st.visited then
        dijkstraLoop g fuel { st with queue := rest }
      else
        let st1 : DijkstraState :=
          { st with queue := rest, visited := cur :: st.visited }
        dijkstraLoop g fuel ((adjOf g cur).foldl (relaxEdge cur d) st1)

/-- Initial state: `distances = {node: inf, …}; distances[start] = 0;
previous = {node: None, …}; priority_queue = [(0.0, start)]`. -/
def initState (start : Node) : DijkstraState :=
  { dist := fun n => if n = start then some 0 else none
    prev := fun _ => none
    queue := [(0, start)]
    visited := [] }

/-- The `while current is not None` back-trace of `_first_hop`,
fuelled; returns the path from `destination` down to the chain's end
(the list the Python code builds before reversing). -/
def backtrace (prev : Node → Option Node) : ℕ → Node → Option (List Node)
  | 0, _ => none
  | fuel + 1, cur =>
    match prev cur with
    | none => some [cur]
    | some p => (backtrace prev fuel p).map (fun l => cur :: l)

/-- Function `_first_hop` (algorithm.py, lines 65–82).  The outer `Option` is
the fuel (termination) layer; the inner `Option` is the function's own
`None` result for unreachable destinations. -/
def firstHop (prev : Node → Option Node) (fuel : ℕ) (destination : Node) :
    Option (Option Node) :=
  (backtrace prev fuel destination).map (fun path =>
    match path.reverse with
    | _ :: h :: _ => some h
    | _ => none)

/-- The final `for destination in graph:` loop building the routing
table in key order. -/
def buildTable (prev : Node → Option Node) (fuel : ℕ) (start : Node) :
    List Node → Option (List (Node × Node))
  | [] => some []
  | d :: rest =>
    if d = start then buildTable prev fuel start rest
    else
      match firstHop prev fuel d with
      | none => none
      | some none => buildTable prev fuel start rest
      | some (some h) =>
        (buildTable prev fuel start rest).map (fun t => (d, h) :: t)

/-- Function `calculate_shortest_paths` (algorithm.py, lines 12–62), fuelled in
the Dijkstra loop and in the back-traces.  A `some` result is the
routing table of a terminating execution. -/
def calculate_shortest_paths (g : Graph) (start_node : Node)
    (loopFuel traceFuel : ℕ) : Option (List (Node × Node)) :=
  if start_node ∈ nodesOf g then
    (dijkstraLoop g loopFuel (initState start_node)).bind
      (fun st => buildTable st.prev traceFuel start_node (nodesOf g))
  else some []

/-! ## `ospf_gaming_daemon.py`: daemon state and LSA processing -/

/-- The per-neighbour mutable entry of `self.neighbors` restricted to
the fields the embedded handlers read or write (`last_hello` and
`metrics["cost"]`; `none` cost models `float("inf")`). -/
structure NeighborEntry where
  last_hello : ℚ
  cost : Option ℚ
deriving DecidableEq

/-- The daemon state touched by `_process_lsa` and
`_dead_interval_loop`: router id, the neighbour dict (in configuration
order), the per-origin LSA sequence numbers, the topology graph and
the per-origin prefix sets (`lsdb_prefixes`). -/
structure DaemonState where
  router_id : String
  neighbors : List (String × NeighborEntry)
  lsa_versions : List (String × ℤ)
  topology_graph : List (String × List (String × Option ℚ))
  lsdb_prefixes : List (String × Finset String)
deriving DecidableEq

/-- An inbound LSA message (the fields `_process_lsa` reads).  A
missing/falsy `router_id` is modelled by the empty string; `none` link
costs model non-finite floats. -/
structure LSAMsg where
  router_id : String
  links : List (String × Option ℚ)
  prefixes : List String
  seqnum : ℤ
  hops : ℤ
deriving DecidableEq

/-- Result of processing one LSA: the new state, the messages handed
to `_send_message` (neighbour id paired with the forwarded message, in
emission order), and whether `_recalculate_routes` was triggered. -/
structure LSAResult where
  state : DaemonState
  sends : List (String × LSAMsg)
  recalc : Bool
deriving DecidableEq

/-- Model of `self.topology_graph[origin].update(new_links)` followed by the
stale-link deletion loop: existing keys take the announced cost, new
keys are appended, keys absent from the announcement are dropped. -/
def updatedAdj (adj0 newLinks : List (String × Option ℚ)) :
    List (String × Option ℚ) :=
  let adj1 := adj0.map (fun p =>
    match dlookup newLinks p.1 with
    | some w => (p.1, w)
    | none => p)
  let adj2 := adj1 ++ newLinks.filter (fun p => (dlookup adj0 p.1).isNone)
  adj2.filter (fun p => (dlookup newLinks p.1).isSome)

/-- Method `OSPFGamingDaemon._process_lsa` (ospf_gaming_daemon.py,
lines 233–286). -/
def processLSA (st : DaemonState) (msg : LSAMsg) : LSAResult :=
  let origin := msg.router_id
  if origin = "" then ⟨st, [], false⟩
  else
    let current_seq := (dlookup st.lsa_versions origin).getD (-1)
    if msg.seqnum ≤ current_seq then ⟨st, [], false⟩
    else
      let versions1 := dinsert st.lsa_versions origin msg.seqnum
      let graph0 :=
        if (dlookup st.topology_graph origin).isSome then st.topology_graph
        else st.topology_graph ++ [(origin, [])]
      let before_links := (dlookup graph0 origin).getD []
      let new_links := buildDict msg.links
      let adjNew := updatedAdj before_links new_links
      let graph1 := dinsert graph0 origin adjNew
      let topoChanged := ¬ dictEq adjNew before_links
      let old_pfxs := (dlookup st.lsdb_prefixes origin).getD ∅
      let new_pfxs := msg.prefixes.toFinset
      let pfxChanged := new_pfxs ≠ ∅ ∧ new_pfxs ≠ old_pfxs
      let lsdb1 :=
        if new_pfxs ≠ ∅ ∧ new_pfxs ≠ old_pfxs then
          dinsert st.lsdb_prefixes origin new_pfxs
        else st.lsdb_prefixes
      let need_reflood := topoChanged ∨ pfxChanged
      let st1 : DaemonState :=
        { st with
          lsa_versions := versions1
          topology_graph := graph1
          lsdb_prefixes := lsdb1 }
      let sends :=
        if need_reflood ∧ 0 < msg.hops then
          ((st.neighbors.map (fun p => p.1)).filter (fun n => n ≠ origin)).map
            (fun n => (n, { msg with hops := msg.hops - 1 }))
        else []
      ⟨st1, sends, topoChanged ∨ pfxChanged⟩

/-! ## `ospf_gaming_daemon.py`: `_dead_interval_loop` body -/

/-- Model of `del self.topology_graph[a][b]`: drop the edge `a → b` from the
adjacency of `a` (callers guard on the key being present). -/
def edgeDel (g : List (String × List (String × Option ℚ))) (a b : String) :
    List (String × List (String × Option ℚ)) :=
  g.map (fun p => if p.1 == a then (p.1, derase p.2 b) else p)

/-- Constant `DEAD_INTERVAL` (ospf_gaming_daemon.py, line 25). -/
def DEAD_INTERVAL : ℚ := 20

/-- The body of the `for nid, state in self.neighbors.items():` loop of
`_dead_interval_loop` for one neighbour: mark the cost unusable and
drop both directed edges between the router and the silent neighbour,
recording whether any edge was removed. -/
def deadStep (rid : String) (now : ℚ) (acc : DaemonState × Bool)
    (entry : String × NeighborEntry) : DaemonState × Bool :=
  let st := acc.1
  if DEAD_INTERVAL < now - entry.2.last_hello then
    let neighbors1 := st.neighbors.map (fun p =>
      if p.1 == entry.1 then (p.1, { p.2 with cost := none }) else p)
    let st1 := { st with neighbors := neighbors1 }
    let acc1 : DaemonState × Bool :=
      if (dlookup ((dlookup st1.topology_graph rid).getD []) entry.1).isSome then
        ({ st1 with topology_graph := edgeDel st1.topology_graph rid entry.1 }, true)
      else (st1, acc.2)
    if (dlookup ((dlookup acc1.1.topology_graph entry.1).getD []) rid).isSome then
      ({ acc1.1 with topology_graph := edgeDel acc1.1.topology_graph entry.1 rid }, true)
    else acc1
  else acc

/-- One pass of `_dead_interval_loop` (ospf_gaming_daemon.py,
lines 195–215) at wall-clock time `now`.  The returned flag is
`removed_any`; when it is true the loop calls `_recalculate_routes()`
and `_broadcast_lsa()`. -/
def deadPass (now : ℚ) (st : DaemonState) : DaemonState × Bool :=
  st.neighbors.foldl (deadStep st.router_id now) (st, false)

/-! ## `ospf_gaming_daemon.py`: `_synchronise_kernel_routes` -/

/-- The daemon fields `_synchronise_kernel_routes`,
`_resolve_next_hop_ip` and `_resolve_router_prefixes` read (all of
them constant during one reconciliation): the router id, the local
prefix list, the neighbour dict projected to its `ip` field, the
configured neighbour settings projected to their `ip` field, and the
prefix LSDB. -/
structure SyncEnv where
  router_id : String
  local_prefixes : List String
  neighbors : List (String × String)
  neighbor_settings : List (String × String)
  lsdb_prefixes : List (String × Finset String)

/-- Model of the expression deriving a /24 from a link address:
`".".join(ip.split(".")[:3]) + ".0/24"`. -/
def infer24 (ip : String) : String :=
  String.intercalate "." ((ip.splitOn ".").take 3) ++ ".0/24"

/-- Method `_resolve_next_hop_ip` (ospf_gaming_daemon.py, lines 457–461). -/
def resolveNextHopIp (env : SyncEnv) (next_hop_id : String) : Option String :=
  dlookup env.neighbors next_hop_id

/-- Method `_resolve_router_prefixes` (ospf_gaming_daemon.py, lines 463–476).
The Python `list(prefixes)` enumerates a set; the enumeration order is
modelled as sorted order (the order never influences which routes are
desired, only the order dict keys are first inserted in). -/
def resolveRouterPrefixes (env : SyncEnv) (rid : String) : List String :=
  if rid = env.router_id then env.local_prefixes
  else
    let fromLsdb := (dlookup env.lsdb_prefixes rid).getD ∅
    if fromLsdb ≠ ∅ then fromLsdb.sort (fun a b => a ≤ b)
    else
      match dlookup env.neighbor_settings rid with
      | some ip => [infer24 ip]
      | none => []

/-- The `desired_prefixes` dict built by the first loop of
`_synchronise_kernel_routes` (lines 405–420): for every destination
with a resolvable next hop, each announced prefix that is not local is
mapped to the next hop's address, later destinations overwriting. -/
def desiredPrefixes (env : SyncEnv) (new_routes : List (String × String)) :
    List (String × String) :=
  new_routes.foldl (fun acc dr =>
    if dr.1 = env.router_id then acc
    else
      match resolveNextHopIp env dr.2 with
      | none => acc
      | some nhIp =>
        (resolveRouterPrefixes env dr.1).foldl (fun acc2 pfx =>
          if pfx ∈ env.local_prefixes then acc2 else dinsert acc2 pfx nhIp) acc) []

/-- A kernel FIB operation issued through `route_manager`. -/
inductive FibOp where
  | addOp (pfx nhIp : String)
  | delOp (pfx : String)
deriving DecidableEq

/-- The add/update loop of `_synchronise_kernel_routes`
(lines 422–434), with every FIB command succeeding: skip prefixes
whose installed next hop already matches, otherwise delete the stale
route if present, add the new one, and record it installed. -/
def installPhase : List (String × String) → List (String × String) →
    List FibOp × List (String × String)
  | [], installed => ([], installed)
  | (pfx, nhIp) :: rest, installed =>
    let current := dlookup installed pfx
    if current = some nhIp then installPhase rest installed
    else
      let ops0 := (if current.isSome then [FibOp.delOp pfx] else []) ++ [FibOp.addOp pfx nhIp]
      let r := installPhase rest (dinsert installed pfx nhIp)
      (ops0 ++ r.1, r.2)

/-- The removal loop of `_synchronise_kernel_routes` (lines 436–444)
over a snapshot of the installed keys: local prefixes are popped
without touching the FIB; other undesired prefixes go through
`_remove_installed_route` (membership guard, `delete_route`, pop). -/
def removePhase (localPfxs desiredKeys : List String) :
    List String → List (String × String) → List FibOp × List (String × String)
  | [], installed => ([], installed)
  | pfx :: rest, installed =>
    if pfx ∈ desiredKeys then removePhase localPfxs desiredKeys rest installed
    else if pfx ∈ localPfxs then
      removePhase localPfxs desiredKeys rest (derase installed pfx)
    else if (dlookup installed pfx).isSome then
      let r := removePhase localPfxs desiredKeys rest (derase installed pfx)
      (FibOp.delOp pfx :: r.1, r.2)
    else removePhase localPfxs desiredKeys rest installed

/-- Method `_synchronise_kernel_routes` (ospf_gaming_daemon.py,
lines 399–444) with every FIB command succeeding: returns the FIB
operations issued (in order) and the updated `installed_routes`. -/
def syncRoutes (env : SyncEnv) (installed : List (String × String))
    (new_routes : List (String × String)) :
    List FibOp × List (String × String) :=
  let desired := desiredPrefixes env new_routes
  let r1 := installPhase desired installed
  let r2 := removePhase env.local_prefixes (desired.map (fun p => p.1))
    (r1.2.map (fun p => p.1)) r1.2
  (r1.1 ++ r2.1, r2.2)

/-! ## `route_manager.py` -/

/-- Outcome of the underlying `subprocess.run(["ip", "route", …],
check=True)` call: success, or a `CalledProcessError` carrying the
command's stderr. -/
inductive CmdOutcome where
  | ok
  | processError (stderr : String)

/-- Function `_run_ip_command` (route_manager.py, lines 10–18): logs and
re-raises a `CalledProcessError`. -/
def runIpCommand (outcome : CmdOutcome) : Except String Unit :=
  match outcome with
  | CmdOutcome.ok => Except.ok ()
  | CmdOutcome.processError e => Except.error e

/-- Function `add_route` (route_manager.py, lines 21–36): any command failure
propagates to the caller. -/
def add_route (destination : String) (next_hop_ip : String)
    (iface : Option String) (outcome : CmdOutcome) : Except String Unit :=
  match runIpCommand outcome with
  | Except.ok _ => Except.ok ()
  | Except.error e => Except.error e

/-- Function `delete_route` (route_manager.py, lines 39–51): the `try/except
Exception` swallows every command failure. -/
def delete_route (destination : String) (outcome : CmdOutcome) :
    Except String Unit :=
  match runIpCommand outcome with
  | Except.ok _ => Except.ok ()
  | Except.error _ => Except.ok ()

/-! ## Specification predicates -/

/-- Node `b` is a direct neighbour of `a` in the graph through an edge of
finite cost. -/
def FiniteEdge (g : Graph) (a b : Node) : Prop :=
  ∃ w : ℚ, (b, some w) ∈ adjOf g a

/-- Reachability through finite-cost edges. -/
inductive FinReach (g : Graph) : Node → Node → Prop
  | refl (a : Node) : FinReach g a a
  | tail {a b c : Node} : FinReach g a b → FiniteEdge g b c → FinReach g a c

/-- The invariant of the Dijkstra loop state that the first-hop
properties rest on: every predecessor pointer follows a finite edge,
predecessor chains can only end at the start node, and every queued
node already has a predecessor unless it is the start node. -/
structure DijkstraInv (g : Graph) (s : Node) (st : DijkstraState) : Prop where
  prevEdge : ∀ x c, st.prev x = some c → FiniteEdge g c x
  prevChain : ∀ x c, st.prev x = some c → (c = s ∨ st.prev c ≠ none)
  queueOk : ∀ p ∈ st.queue, p.2 = s ∨ st.prev p.2 ≠ none

/-- The exact call tree of the `while current is not None` back-trace:
`BTrace prev cur l` holds when following the predecessor pointers from
`cur` terminates and collects `l`. -/
inductive BTrace (prev : Node → Option Node) : Node → List Node → Prop
  | stop {cur : Node} : prev cur = none → BTrace prev cur [cur]
  | link {cur p : Node} {l : List Node} :
      prev cur = some p → BTrace prev p l → BTrace prev cur (cur :: l)

/-- Cost of the directed edge `a → b` as the daemon's topology dict
stores it: outer `none` = no such edge, inner `none` = non-finite. -/
def edgeCost (g : List (String × List (String × Option ℚ))) (a b : String) :
    Option (Option ℚ) :=
  dlookup ((dlookup g a).getD []) b

/-- The `installed_routes` states reachable by the daemon: it starts
empty and is only ever modified by `_synchronise_kernel_routes` and by
the pops in `_remove_installed_route` / `_flush_routes`. -/
inductive InstalledReach (env : SyncEnv) : List (String × String) → Prop
  | init : InstalledReach env []
  | sync (inst : List (String × String)) (nr : List (String × String)) :
      InstalledReach env inst → InstalledReach env (syncRoutes env inst nr).2
  | removeOne (inst : List (String × String)) (pfx : String) :
      InstalledReach env inst → InstalledReach env (derase inst pfx)

/-! ## Dictionary lemmas -/

theorem find?_none_append {α : Type} {p : α → Bool} {l1 l2 : List α}
    (h : l1.find? p = none) : (l1 ++ l2).find? p = l2.find? p := by
  induction l1 with
  | nil => rfl
  | cons a as ih =>
    by_cases ha : p a
    · simp [List.find?, ha] at h
    · simp only [List.cons_append, List.find?, ha]
      exact ih (by simpa [List.find?, ha] using h)

theorem find?_some_append {α : Type} {p : α → Bool} {l1 l2 : List α} {a : α}
    (h : l1.find? p = some a) : (l1 ++ l2).find? p = some a := by
  induction l1 with
  | nil => simp [List.find?] at h
  | cons b bs ih =>
    by_cases hb : p b
    · simp only [List.find?, hb] at h
      simpa [List.cons_append, List.find?, hb] using h
    · simp only [List.find?, hb] at h
      simpa [List.cons_append, List.find?, hb] using ih h

theorem dlookup_dinsert {α : Type} (l : List (String × α)) (k : String) (v : α) :
    dlookup (dinsert l k v) k = some v := by
  unfold dinsert
  split_ifs with hfind
  · induction l with
    | nil => simp [dlookup] at hfind
    | cons a as ih =>
      by_cases ha : (a.1 == k) = true
      · simp [dlookup, List.find?, ha]
      · simp only [List.find?, ha] at hfind
        have := ih hfind
        simpa [dlookup, List.find?, ha] using this
  · have hnone : l.find? (fun p => p.1 == k) = none := by
      cases hf : l.find? (fun p => p.1 == k) with
      | none => rfl
      | some p => rw [hf] at hfind; simp at hfind
    unfold dlookup
    rw [find?_none_append hnone]
    simp [List.find?]

theorem find?_map_replace_ne {α : Type} (l : List (String × α)) {k k' : String}
    (v : α) (hne : k' ≠ k) :
    (l.map (fun p => if (p.1 == k) = true then (k, v) else p)).find?
      (fun p => p.1 == k') = l.find? (fun p => p.1 == k') := by
  induction l with
  | nil => rfl
  | cons a as ih =>
    by_cases ha : (a.1 == k) = true
    · have ha' : a.1 = k := by simpa using ha
      have h1 : ((k, v).1 == k') = false := by
        simp [beq_iff_eq]; exact fun h => hne h.symm
      have h2 : (a.1 == k') = false := by
        simp [beq_iff_eq, ha']; exact fun h => hne h.symm
      simpa [List.find?, ha, h1, h2] using ih
    · by_cases hk' : (a.1 == k') = true
      · simp [List.find?, ha, hk']
      · simpa [List.find?, ha, hk'] using ih

theorem dlookup_dinsert_ne {α : Type} (l : List (String × α)) {k k' : String}
    (v : α) (hne : k' ≠ k) : dlookup (dinsert l k v) k' = dlookup l k' := by
  unfold dinsert
  split_ifs with hfind
  · unfold dlookup
    rw [find?_map_replace_ne l v hne]
  · unfold dlookup
    cases hf : l.find? (fun p => p.1 == k') with
    | none =>
      rw [find?_none_append hf]
      have : ((k, v).1 == k') = false := by
        simp [beq_iff_eq]; exact fun h => hne h.symm
      simp [List.find?, this]
    | some p => rw [find?_some_append hf]

theorem dlookup_derase_self {α : Type} (l : List (String × α)) (k : String) :
    dlookup (derase l k) k = none := by
  unfold derase dlookup
  induction l with
  | nil => rfl
  | cons a as ih =>
    by_cases ha : (a.1 == k) = true
    · simpa [List.filter, ha] using ih
    · simpa [List.filter, List.find?, ha] using ih

theorem dlookup_derase_ne {α : Type} (l : List (String × α)) {k k' : String}
    (hne : k' ≠ k) : dlookup (derase l k) k' = dlookup l k' := by
  unfold derase dlookup
  induction l with
  | nil => rfl
  | cons a as ih =>
    by_cases ha : (a.1 == k) = true
    · have ha' : a.1 = k := by simpa using ha
      have h2 : (a.1 == k') = false := by
        simp [beq_iff_eq, ha']; exact fun h => hne h.symm
      simpa [List.filter, ha, List.find?, h2] using ih
    · by_cases hk' : (a.1 == k') = true
      · simp [List.filter, ha, List.find?, hk']
      · simpa [List.filter, ha, List.find?, hk'] using ih

theorem mem_keys_derase {α : Type} {l : List (String × α)} {k p : String}
    (h : p ∈ (derase l k).map (fun q => q.1)) :
    p ∈ l.map (fun q => q.1) ∧ p ≠ k := by
  unfold derase at h
  obtain ⟨q, hq, hqp⟩ := List.mem_map.mp h
  have hqmem := List.mem_of_mem_filter hq
  have hqkey := List.of_mem_filter hq
  constructor
  · exact List.mem_map.mpr ⟨q, hqmem, hqp⟩
  · intro hpk
    rw [← hqp] at hpk
    simp [hpk] at hqkey

/-! ## Dijkstra invariant lemmas (claim C5) -/

theorem foldl_min_mem (x : ℚ × Node) (xs : List (ℚ × Node)) :
    xs.foldl (fun best y => if entryLt y best then y else best) x = x ∨
    xs.foldl (fun best y => if entryLt y best then y else best) x ∈ xs := by
  induction xs generalizing x with
  | nil => left; rfl
  | cons y ys ih =>
    simp only [List.foldl_cons]
    rcases ih (if entryLt y x then y else x) with h | h
    · rw [h]
      by_cases hy : entryLt y x
      · right; simp [hy]
      · left; simp [hy]
    · right; exact List.mem_cons_of_mem y h

theorem popMin_mem {q : List (ℚ × Node)} {m : ℚ × Node} {rest : List (ℚ × Node)}
    (h : popMin q = some (m, rest)) : m ∈ q ∧ rest ⊆ q := by
  cases q with
  | nil => simp [popMin] at h
  | cons x xs =>
    simp only [popMin, Option.some_inj] at h
    have hm : xs.foldl (fun best y => if entryLt y best then y else best) x = m :=
      congrArg Prod.fst h
    have hrest : (x :: xs).erase m = rest := by
      have h2 := congrArg Prod.snd h
      simpa [hm] using h2
    constructor
    · rcases foldl_min_mem x xs with h1 | h1
      · rw [← hm, h1]; exact List.mem_cons_self x xs
      · rw [← hm]; exact List.mem_cons_of_mem x h1
    · rw [← hrest]; exact List.erase_subset m (x :: xs)

/-- One edge relaxation preserves the invariant, provided the current
node is itself chain-grounded and the edge really leaves it. -/
theorem relaxEdge_inv {g : Graph} {s : Node} {cur : Node} {d : ℚ}
    {st : DijkstraState} {e : Node × Option ℚ}
    (hinv : DijkstraInv g s st) (hcur : cur = s ∨ st.prev cur ≠ none)
    (he : e ∈ adjOf g cur) :
    DijkstraInv g s (relaxEdge cur d st e) ∧
      (cur = s ∨ (relaxEdge cur d st e).prev cur ≠ none) := by
  unfold relaxEdge
  cases hw : e.2 with
  | none => exact ⟨hinv, hcur⟩
  | some w =>
    by_cases hlt : ltDist (d + w) (st.dist e.1)
    · simp only [hlt, if_pos]
      have hprevmono : ∀ c, st.prev c ≠ none →
          (fun n => if n = e.1 then some cur else st.prev n) c ≠ none := by
        intro c hc
        by_cases hce : c = e.1 <;> simp [hce, hc]
      have hgrounded : cur = s ∨
          (fun n => if n = e.1 then some cur else st.prev n) cur ≠ none := by
        rcases hcur with h | h
        · exact Or.inl h
        · exact Or.inr (hprevmono cur h)
      refine ⟨⟨?_, ?_, ?_⟩, hgrounded⟩
      · intro x c hx
        by_cases hxe : x = e.1
        · subst hxe
          have hc : cur = c := by simpa using hx
          subst hc
          refine ⟨w, ?_⟩
          rw [← hw, Prod.mk.eta]
          exact he
        · simp only [if_neg hxe] at hx
          exact hinv.prevEdge x c hx
      · intro x c hx
        by_cases hxe : x = e.1
        · subst hxe
          have hc : cur = c := by simpa using hx
          subst hc
          rcases hcur with h | h
          · exact Or.inl h
          · exact Or.inr (hprevmono cur h)
        · simp only [if_neg hxe] at hx
          rcases hinv.prevChain x c hx with h | h
          · exact Or.inl h
          · exact Or.inr (hprevmono c h)
      · intro p hp
        rcases List.mem_cons.mp hp with h | h
        · subst h
          right
          simp
        · rcases hinv.queueOk p h with h1 | h1
          · exact Or.inl h1
          · exact Or.inr (hprevmono p.2 h1)
    · simp only [hlt]
      exact ⟨hinv, hcur⟩

/-- Folding the relaxation over any sublist of the adjacency of the
current node preserves the invariant. -/
theorem relaxFold_inv {g : Graph} {s : Node} {cur : Node} {d : ℚ}
    (l : List (Node × Option ℚ)) (hl : ∀ e ∈ l, e ∈ adjOf g cur)
    {st : DijkstraState} (hinv : DijkstraInv g s st)
    (hcur : cur = s ∨ st.prev cur ≠ none) :
    DijkstraInv g s (l.foldl (relaxEdge cur d) st) := by
  induction l generalizing st with
  | nil => exact hinv
  | cons e es ih =>
    have he := hl e (List.mem_cons_self e es)
    obtain ⟨hinv1, hcur1⟩ := relaxEdge_inv hinv hcur he
    exact ih (fun e' he' => hl e' (List.mem_cons_of_mem e he')) hinv1 hcur1

/-- The Dijkstra main loop preserves the invariant. -/
theorem dijkstraLoop_inv {g : Graph} {s : Node} (fuel : ℕ)
    {st stF : DijkstraState} (hrun : dijkstraLoop g fuel st = some stF)
    (hinv : DijkstraInv g s st) : DijkstraInv g s stF := by
  induction fuel generalizing st with
  | zero =>
    unfold dijkstraLoop at hrun
    split_ifs at hrun
    · obtain rfl : st = stF := by simpa using hrun
      exact hinv
  | succ n ih =>
    unfold dijkstraLoop at hrun
    cases hpop : popMin st.queue with
    | none =>
      simp only [hpop] at hrun
      obtain rfl : st = stF := by simpa using hrun
      exact hinv
    | some pr =>
      obtain ⟨⟨d, cur⟩, rest⟩ := pr
      simp only [hpop] at hrun
      obtain ⟨hmem, hsub⟩ := popMin_mem hpop
      by_cases hvis : cur ∈ st.visited
      · rw [if_pos hvis] at hrun
        refine ih hrun ⟨hinv.prevEdge, hinv.prevChain, ?_⟩
        intro p hp
        exact hinv.queueOk p (hsub hp)
      · rw [if_neg hvis] at hrun
        have hcur : cur = s ∨ st.prev cur ≠ none := hinv.queueOk (d, cur) hmem
        have hinv1 : DijkstraInv g s
            { st with queue := rest, visited := cur :: st.visited } := by
          refine ⟨hinv.prevEdge, hinv.prevChain, ?_⟩
          intro p hp
          exact hinv.queueOk p (hsub hp)
        exact ih hrun (relaxFold_inv (adjOf g cur) (fun e he => he) hinv1 hcur)

/-- The initial state satisfies the invariant. -/
theorem initState_inv (g : Graph) (s : Node) : DijkstraInv g s (initState s) := by
  refine ⟨?_, ?_, ?_⟩
  · intro x c hx; simp [initState] at hx
  · intro x c hx; simp [initState] at hx
  · intro p hp
    simp only [initState, List.mem_singleton] at hp
    subst hp
    exact Or.inl rfl

/-! ## Back-trace lemmas (claim C5) -/

theorem backtrace_btrace {prev : Node → Option Node} (fuel : ℕ) {cur : Node}
    {l : List Node} (h : backtrace prev fuel cur = some l) : BTrace prev cur l := by
  induction fuel generalizing cur l with
  | zero => simp [backtrace] at h
  | succ n ih =>
    unfold backtrace at h
    cases hp : prev cur with
    | none =>
      simp only [hp] at h
      obtain rfl : [cur] = l := by simpa using h
      exact BTrace.stop hp
    | some p =>
      simp only [hp] at h
      cases hb : backtrace prev n p with
      | none => simp only [hb, Option.map_none'] at h; exact absurd h (by simp)
      | some l0 =>
        simp only [hb, Option.map_some'] at h
        obtain rfl : cur :: l0 = l := by simpa using h
        exact BTrace.link hp (ih hb)

theorem btrace_ne_nil {prev : Node → Option Node} {cur : Node} {l : List Node}
    (h : BTrace prev cur l) : l ≠ [] := by
  cases h <;> simp

/-- A terminated back-trace ends at a node with no predecessor, and the
traced node is finitely reachable from that end under `prevEdge`. -/
theorem btrace_last {g : Graph} {prev : Node → Option Node}
    (hedge : ∀ x c, prev x = some c → FiniteEdge g c x)
    {cur : Node} {l : List Node} (h : BTrace prev cur l) :
    ∃ t l0, l = l0 ++ [t] ∧ prev t = none ∧ FinReach g t cur := by
  induction h with
  | stop hp => exact ⟨_, [], rfl, hp, FinReach.refl _⟩
  | link hp hb ih =>
    obtain ⟨t, l0, rfl, ht, hr⟩ := ih
    exact ⟨t, _ :: l0, rfl, ht, FinReach.tail hr (hedge _ _ hp)⟩

/-- A trace starts at the node it was started from. -/
theorem btrace_head {prev : Node → Option Node} {cur : Node} {l : List Node}
    (h : BTrace prev cur l) : ∃ l0, l = cur :: l0 := by
  cases h with
  | stop _ => exact ⟨[], rfl⟩
  | link _ _ => exact ⟨_, rfl⟩

/-- The second element of the reversed trace points (via `prev`) at the
first element of the reversed trace. -/
theorem btrace_reverse_link {prev : Node → Option Node} {cur : Node}
    {l : List Node} (h : BTrace prev cur l) :
    ∀ t hd rest, l.reverse = t :: hd :: rest → prev hd = some t := by
  induction h with
  | stop hp =>
    intro t hd rest habs
    simp at habs
  | @link c p l0 hp hb ih =>
    intro t hd rest hrev
    obtain ⟨l0t, rfl⟩ := btrace_head hb
    rw [List.reverse_cons] at hrev
    cases hrl : (p :: l0t).reverse with
    | nil => simp at hrl
    | cons a as =>
      rw [hrl] at hrev
      cases as with
      | nil =>
        have hlen : (p :: l0t).length = 1 := by
          rw [← List.length_reverse, hrl]; rfl
        have hl0t : l0t = [] := by simpa using hlen
        subst hl0t
        have hap : p = a := by simpa using hrl
        subst hap
        simp only [List.cons_append, List.nil_append] at hrev
        injection hrev with ht htail
        injection htail with hhd hrest
        subst ht; subst hhd
        exact hp
      | cons b bs =>
        simp only [List.cons_append] at hrev
        injection hrev with ht htail
        injection htail with hhd hrest
        subst ht; subst hhd
        exact ih _ _ _ hrl

/-- Soundness of `_first_hop` under the loop invariant: a returned hop
is a finite-edge neighbour of the start node, and the destination is
finitely reachable from the start node. -/
theorem firstHop_sound {g : Graph} {s : Node} {prev : Node → Option Node}
    (hedge : ∀ x c, prev x = some c → FiniteEdge g c x)
    (hchain : ∀ x c, prev x = some c → c = s ∨ prev c ≠ none)
    {fuel : ℕ} {d h : Node} (hfh : firstHop prev fuel d = some (some h)) :
    FiniteEdge g s h ∧ FinReach g s d := by
  unfold firstHop at hfh
  cases hb : backtrace prev fuel d with
  | none => simp [hb] at hfh
  | some path =>
    simp only [hb, Option.map_some', Option.some_inj] at hfh
    have hbt := backtrace_btrace fuel hb
    obtain ⟨t, l0, hpath, htnone, hreach⟩ := btrace_last hedge hbt
    cases hrev : path.reverse with
    | nil => rw [hrev] at hfh; simp at hfh
    | cons t2 rest2 =>
      cases rest2 with
      | nil => rw [hrev] at hfh; simp at hfh
      | cons h2 rest3 =>
        rw [hrev] at hfh
        have hh : h2 = h := by simpa using hfh
        subst hh
        have hlink : prev h2 = some t2 := btrace_reverse_link hbt t2 h2 rest3 hrev
        have ht2 : t2 = t := by
          have hrev2 : path.reverse = t :: l0.reverse := by
            rw [hpath]; simp
          have hhd := congrArg List.head? (hrev.symm.trans hrev2)
          simpa using hhd
        subst ht2
        have hts : t2 = s := by
          rcases hchain h2 t2 hlink with h1 | h1
          · exact h1
          · exact absurd htnone h1
        subst hts
        exact ⟨hedge h2 t2 hlink, hreach⟩

/-- Every routing-table entry produced by the final loop skips the
start node and comes from a successful first-hop computation. -/
theorem buildTable_mem {prev : Node → Option Node} {fuel : ℕ} {s : Node}
    {ds : List Node} {tbl : List (Node × Node)}
    (hbt : buildTable prev fuel s ds = some tbl) {d h : Node}
    (hmem : (d, h) ∈ tbl) :
    d ≠ s ∧ firstHop prev fuel d = some (some h) := by
  induction ds generalizing tbl with
  | nil =>
    obtain rfl : ([] : List (Node × Node)) = tbl := by simpa [buildTable] using hbt
    simp at hmem
  | cons d0 rest ih =>
    unfold buildTable at hbt
    by_cases hd0 : d0 = s
    · rw [if_pos hd0] at hbt
      exact ih hbt hmem
    · rw [if_neg hd0] at hbt
      cases hfh : firstHop prev fuel d0 with
      | none =>
        simp only [hfh] at hbt
        exact absurd hbt (by simp)
      | some o =>
        simp only [hfh] at hbt
        cases o with
        | none => exact ih hbt hmem
        | some h0 =>
          cases htbl : buildTable prev fuel s rest with
          | none =>
            simp only [htbl, Option.map_none'] at hbt
            exact absurd hbt (by simp)
          | some tbl0 =>
            simp only [htbl, Option.map_some', Option.some_inj] at hbt
            subst hbt
            rcases List.mem_cons.mp hmem with hh | hh
            · have hdh : d = d0 ∧ h = h0 := by
                simpa [Prod.ext_iff] using hh
              obtain ⟨rfl, rfl⟩ := hdh
              exact ⟨hd0, hfh⟩
            · exact ih htbl hh

/-! ## Claim theorems: SPF (C5, C9) -/

/-- C5: for every graph and origin, every entry `(d, h)` of a routing
table produced by a terminating run of `calculate_shortest_paths`
satisfies: `d` differs from the origin, the first-hop `h` is a direct
neighbour of the origin through a finite-cost edge (it is the second
node on the back-traced path, whose chain ends at the origin), and `d`
is reachable from the origin through finite-cost edges; contrapositive
of the last conjunct: destinations with no finite-cost path are absent
from the table. -/
theorem spf_first_hop_sound (g : Graph) (s : Node) (f1 f2 : ℕ)
    (rt : List (Node × Node)) (d h : Node)
    (hrun : calculate_shortest_paths g s f1 f2 = some rt)
    (hmem : (d, h) ∈ rt) :
    d ≠ s ∧ FiniteEdge g s h ∧ FinReach g s d := by
  unfold calculate_shortest_paths at hrun
  by_cases hs : s ∈ nodesOf g
  · rw [if_pos hs] at hrun
    cases hloop : dijkstraLoop g f1 (initState s) with
    | none =>
      rw [hloop] at hrun
      exact absurd hrun (by simp)
    | some stF =>
      rw [hloop] at hrun
      simp only [Option.some_bind] at hrun
      have hinv : DijkstraInv g s stF :=
        dijkstraLoop_inv f1 hloop (initState_inv g s)
      obtain ⟨hds, hfh⟩ := buildTable_mem hrun hmem
      obtain ⟨he, hr⟩ := firstHop_sound hinv.prevEdge hinv.prevChain hfh
      exact ⟨hds, he, hr⟩
  · rw [if_neg hs] at hrun
    obtain rfl : ([] : List (Node × Node)) = rt := by simpa using hrun
    simp at hmem

/-- Witness for C5 on the two-node graph `0 ↔ 1` with cost 2: the run
terminates with table `[(1, 1)]`, and the theorem instantiates. -/
theorem spf_first_hop_sound_witness :
    (1 : Node) ≠ 0 ∧
      FiniteEdge [(0, [(1, some 2)]), (1, [(0, some 2)])] 0 1 ∧
      FinReach [(0, [(1, some 2)]), (1, [(0, some 2)])] 0 1 :=
  spf_first_hop_sound [(0, [(1, some 2)]), (1, [(0, some 2)])] 0 8 8
    [(1, 1)] 1 1 (by with_unfolding_all decide) (by decide)

/-- C9: when the requested origin is not a key of the graph dict,
`calculate_shortest_paths` returns the empty routing table (it never
raises: the guard fires before any other computation). -/
theorem spf_missing_origin_empty (g : Graph) (s : Node) (f1 f2 : ℕ)
    (h : s ∉ nodesOf g) : calculate_shortest_paths g s f1 f2 = some [] := by
  unfold calculate_shortest_paths
  rw [if_neg h]

/-- Witness for C9: origin 7 is absent from a one-node graph. -/
theorem spf_missing_origin_empty_witness :
    calculate_shortest_paths [(1, [(1, some 3)])] 7 5 5 = some [] :=
  spf_missing_origin_empty [(1, [(1, some 3)])] 7 5 5 (by decide)

/-! ## Claim theorems: route_manager (C10) -/

/-- C10: `delete_route` returns normally for every outcome of the
underlying `ip route del` command (its `try/except Exception` swallows
the failure), while `add_route` propagates a `CalledProcessError` of
the underlying `ip route replace` command to its caller. -/
theorem delete_route_never_raises :
    (∀ d o, delete_route d o = Except.ok ()) ∧
      (∀ d nh i e, add_route d nh i (CmdOutcome.processError e) =
        Except.error e) := by
  constructor
  · intro d o
    cases o <;> rfl
  · intro d nh i e
    rfl

/-! ## Cost-function lemmas and claim theorems (C1) -/

theorem pyRoundInt_nonneg {x : ℚ} (hx : 0 ≤ x) : 0 ≤ pyRoundInt x := by
  unfold pyRoundInt
  have hn : 0 ≤ ⌊x⌋ := Int.floor_nonneg.mpr hx
  dsimp only
  split_ifs <;> omega

theorem pyRoundInt_le {x : ℚ} {N : ℤ} (hx : x ≤ (N : ℚ)) : pyRoundInt x ≤ N := by
  unfold pyRoundInt
  have hfl : ⌊x⌋ ≤ N := by
    have h1 : ⌊x⌋ ≤ ⌊(N : ℚ)⌋ := Int.floor_le_floor hx
    simpa using h1
  have hfx : (⌊x⌋ : ℚ) ≤ x := Int.floor_le x
  dsimp only
  split_ifs with h1 h2 h3
  · exact hfl
  all_goals {
    have hhalf : 1 / 2 ≤ x - (⌊x⌋ : ℚ) := le_of_not_lt h1
    have hlt : (⌊x⌋ : ℚ) < (N : ℚ) := by linarith
    have : ⌊x⌋ < N := by exact_mod_cast hlt
    omega
  }

theorem pyRound3_bounds {x : ℚ} (h0 : 0 ≤ x) (h1 : x ≤ 100) :
    0 ≤ pyRound3 x ∧ pyRound3 x ≤ 100 := by
  unfold pyRound3
  constructor
  · have h2 : (0 : ℤ) ≤ pyRoundInt (x * 1000) :=
      pyRoundInt_nonneg (by positivity)
    exact div_nonneg (by exact_mod_cast h2) (by norm_num)
  · rw [div_le_iff₀ (by norm_num : (0 : ℚ) < 1000)]
    have h2 : pyRoundInt (x * 1000) ≤ (100000 : ℤ) :=
      pyRoundInt_le (by push_cast; linarith)
    have h3 : ((pyRoundInt (x * 1000) : ℤ) : ℚ) ≤ (100000 : ℚ) := by
      exact_mod_cast h2
    linarith

theorem latencyTermOf_bounds (m : QoSMetrics) (b : NormalizationBounds)
    (hq : ∀ q, m.latency_ms = some q → 0 ≤ q) (hb : 0 < b.latency_ms) :
    0 ≤ latencyTermOf m b ∧ latencyTermOf m b ≤ 1 := by
  unfold latencyTermOf
  cases hm : m.latency_ms with
  | none => norm_num
  | some q =>
    exact ⟨le_min (div_nonneg (hq q hm) hb.le) (by norm_num), min_le_right _ _⟩

theorem jitterTermOf_bounds (m : QoSMetrics) (b : NormalizationBounds)
    (hq : ∀ q, m.jitter_ms = some q → 0 ≤ q) (hb : 0 < b.jitter_ms) :
    0 ≤ jitterTermOf m b ∧ jitterTermOf m b ≤ 1 := by
  unfold jitterTermOf
  cases hm : m.jitter_ms with
  | none => norm_num
  | some q =>
    exact ⟨le_min (div_nonneg (hq q hm) hb.le) (by norm_num), min_le_right _ _⟩

theorem lossTermOf_bounds (m : QoSMetrics) (b : NormalizationBounds)
    (hq : 0 ≤ m.loss_percent) (hb : 0 < b.loss_percent) :
    0 ≤ lossTermOf m b ∧ lossTermOf m b ≤ 1 := by
  unfold lossTermOf
  exact ⟨le_min (div_nonneg hq hb.le) (by norm_num), min_le_right _ _⟩

theorem bandwidthTermOf_bounds (m : QoSMetrics) (b : NormalizationBounds)
    (hb : 0 < b.bandwidth_mbps) :
    0 ≤ bandwidthTermOf m b ∧ bandwidthTermOf m b ≤ 1 := by
  unfold bandwidthTermOf
  cases m.bandwidth_mbps with
  | none => norm_num
  | some bw =>
    dsimp only
    split_ifs with h
    · norm_num
    · push_neg at h
      have hge : 0 ≤ min (bw / b.bandwidth_mbps) 1 :=
        le_min (div_nonneg h.le hb.le) (by norm_num)
      have hle : min (bw / b.bandwidth_mbps) 1 ≤ 1 := min_le_right _ _
      constructor <;> linarith

theorem clamp01_bounds (x : ℚ) : 0 ≤ min 1 (max 0 x) ∧ min 1 (max 0 x) ≤ 1 :=
  ⟨le_min (by norm_num) (le_max_left 0 x), min_le_left 1 _⟩

theorem weighted_clamp_bounds {n1 n2 n3 n4 w1 w2 w3 w4 : ℚ}
    (h1 : 0 ≤ n1 ∧ n1 ≤ 1) (h2 : 0 ≤ n2 ∧ n2 ≤ 1)
    (h3 : 0 ≤ n3 ∧ n3 ≤ 1) (h4 : 0 ≤ n4 ∧ n4 ≤ 1)
    (hw1 : 0 ≤ w1) (hw2 : 0 ≤ w2) (hw3 : 0 ≤ w3) (hw4 : 0 ≤ w4) :
    0 ≤ n1 * w1 + n2 * w2 + n3 * w3 + n4 * w4 ∧
      n1 * w1 + n2 * w2 + n3 * w3 + n4 * w4 ≤ w1 + w2 + w3 + w4 := by
  obtain ⟨h1a, h1b⟩ := h1
  obtain ⟨h2a, h2b⟩ := h2
  obtain ⟨h3a, h3b⟩ := h3
  obtain ⟨h4a, h4b⟩ := h4
  constructor
  · have e1 := mul_nonneg h1a hw1
    have e2 := mul_nonneg h2a hw2
    have e3 := mul_nonneg h3a hw3
    have e4 := mul_nonneg h4a hw4
    linarith
  · have e1 : n1 * w1 ≤ w1 := mul_le_of_le_one_left hw1 h1b
    have e2 : n2 * w2 ≤ w2 := mul_le_of_le_one_left hw2 h2b
    have e3 : n3 * w3 ≤ w3 := mul_le_of_le_one_left hw3 h3b
    have e4 : n4 * w4 ≤ w4 := mul_le_of_le_one_left hw4 h4b
    linarith

/-- C1 (amended): for every QoS sample with non-negative finite parts,
positive normalization bounds and non-negative weights:
`compute_qos_cost` always returns a finite value in `[0, 100]` — it
never returns the non-finite value, not even when loss ≥ 100 or
latency/jitter is non-finite (those inputs clamp to term 1) — while
the daemon's `_calculate_cost` returns `+∞` exactly when loss ≥ 100 or
latency or jitter is non-finite, and otherwise a finite value in
`[0, Σ weights]` (hence in `[0, 100]` when the configured percentage
weights sum to at most 100). -/
theorem cost_function_range
    (m : QoSMetrics) (w : MetricWeights) (b : NormalizationBounds)
    (cfg : CostConfig) (lat jit : Option ℚ) (loss : ℚ) (bw : Option ℚ)
    (hwl : 0 ≤ w.latency) (hwj : 0 ≤ w.jitter)
    (hwlo : 0 ≤ w.loss) (hwb : 0 ≤ w.bandwidth)
    (hbl : 0 < b.latency_ms) (hbj : 0 < b.jitter_ms)
    (hblo : 0 < b.loss_percent) (hbb : 0 < b.bandwidth_mbps)
    (hml : ∀ q, m.latency_ms = some q → 0 ≤ q)
    (hmj : ∀ q, m.jitter_ms = some q → 0 ≤ q)
    (hmlo : 0 ≤ m.loss_percent)
    (hcl : 0 ≤ cfg.weight_latency) (hcj : 0 ≤ cfg.weight_jitter)
    (hclo : 0 ≤ cfg.weight_loss) (hcb : 0 ≤ cfg.weight_bandwidth) :
    (∃ q, compute_qos_cost m w b = some q ∧ 0 ≤ q ∧ q ≤ 100) ∧
    (calculateCost cfg lat jit loss bw = none ↔
      (lat = none ∨ jit = none ∨ 100 ≤ loss)) ∧
    (∀ q, calculateCost cfg lat jit loss bw = some q →
      0 ≤ q ∧ q ≤ cfg.weight_latency + cfg.weight_jitter +
        cfg.weight_loss + cfg.weight_bandwidth) := by
  refine ⟨?_, ?_, ?_⟩
  · unfold compute_qos_cost
    dsimp only
    split_ifs with hsum
    · exact ⟨100, rfl, by norm_num, by norm_num⟩
    · push_neg at hsum
      obtain ⟨h1a, h1b⟩ := latencyTermOf_bounds m b hml hbl
      obtain ⟨h2a, h2b⟩ := jitterTermOf_bounds m b hmj hbj
      obtain ⟨h3a, h3b⟩ := lossTermOf_bounds m b hmlo hblo
      obtain ⟨h4a, h4b⟩ := bandwidthTermOf_bounds m b hbb
      have hnum0 : 0 ≤ w.latency * latencyTermOf m b +
          w.jitter * jitterTermOf m b + w.loss * lossTermOf m b +
          w.bandwidth * bandwidthTermOf m b := by
        have e1 := mul_nonneg hwl h1a
        have e2 := mul_nonneg hwj h2a
        have e3 := mul_nonneg hwlo h3a
        have e4 := mul_nonneg hwb h4a
        linarith
      have hnumle : w.latency * latencyTermOf m b +
          w.jitter * jitterTermOf m b + w.loss * lossTermOf m b +
          w.bandwidth * bandwidthTermOf m b ≤
          w.latency + w.jitter + w.loss + w.bandwidth := by
        have e1 : w.latency * latencyTermOf m b ≤ w.latency :=
          mul_le_of_le_one_right hwl h1b
        have e2 : w.jitter * jitterTermOf m b ≤ w.jitter :=
          mul_le_of_le_one_right hwj h2b
        have e3 : w.loss * lossTermOf m b ≤ w.loss :=
          mul_le_of_le_one_right hwlo h3b
        have e4 : w.bandwidth * bandwidthTermOf m b ≤ w.bandwidth :=
          mul_le_of_le_one_right hwb h4b
        linarith
      have hsc0 : 0 ≤ (w.latency * latencyTermOf m b +
          w.jitter * jitterTermOf m b + w.loss * lossTermOf m b +
          w.bandwidth * bandwidthTermOf m b) /
          (w.latency + w.jitter + w.loss + w.bandwidth) :=
        div_nonneg hnum0 hsum.le
      have hsc1 : (w.latency * latencyTermOf m b +
          w.jitter * jitterTermOf m b + w.loss * lossTermOf m b +
          w.bandwidth * bandwidthTermOf m b) /
          (w.latency + w.jitter + w.loss + w.bandwidth) ≤ 1 :=
        (div_le_one hsum).mpr hnumle
      obtain ⟨hr0, hr1⟩ := @pyRound3_bounds
        ((w.latency * latencyTermOf m b + w.jitter * jitterTermOf m b +
          w.loss * lossTermOf m b + w.bandwidth * bandwidthTermOf m b) /
          (w.latency + w.jitter + w.loss + w.bandwidth) * 100)
        (by positivity) (by nlinarith)
      exact ⟨_, rfl, hr0, hr1⟩
  · cases lat with
    | none => simp [calculateCost]
    | some lv =>
      cases jit with
      | none => simp [calculateCost]
      | some jv =>
        unfold calculateCost
        dsimp only
        split_ifs with h
        · simp [h]
        · simp [h]
  · intro q hq
    cases lat with
    | none => simp [calculateCost] at hq
    | some lv =>
      cases jit with
      | none => simp [calculateCost] at hq
      | some jv =>
        unfold calculateCost at hq
        dsimp only at hq
        split_ifs at hq with h
        have hq2 := Option.some.inj hq
        subst hq2
        cases bw with
        | none =>
          dsimp only at hq ⊢
          exact weighted_clamp_bounds (clamp01_bounds _) (clamp01_bounds _)
            (clamp01_bounds _) (by norm_num) hcl hcj hclo hcb
        | some bwv =>
          dsimp only at hq ⊢
          split_ifs with hbw
          · refine weighted_clamp_bounds (clamp01_bounds _) (clamp01_bounds _)
              (clamp01_bounds _) ?_ hcl hcj hclo hcb
            obtain ⟨c0, c1⟩ := clamp01_bounds (bwv / cfg.bandwidth_ref_mbps)
            constructor <;> linarith
          · exact weighted_clamp_bounds (clamp01_bounds _) (clamp01_bounds _)
              (clamp01_bounds _) (by norm_num) hcl hcj hclo hcb

/-- Witness for C1 at the spec's Scenario-B sample (cost 8.5 for both
implementations). -/
theorem cost_function_range_witness :
    (∃ q, compute_qos_cost ⟨some 20, some 2, 0, some 1000⟩ ⟨25, 35, 30, 10⟩
        ⟨100, 20, 100, 1000⟩ = some q ∧ 0 ≤ q ∧ q ≤ 100) ∧
    (calculateCost ⟨25, 35, 30, 10, 100, 20, 1000⟩ (some 20) (some 2) 0
        (some 1000) = none ↔
      ((some (20 : ℚ) : Option ℚ) = none ∨ (some (2 : ℚ) : Option ℚ) = none ∨
        (100 : ℚ) ≤ 0)) ∧
    (∀ q, calculateCost ⟨25, 35, 30, 10, 100, 20, 1000⟩ (some 20) (some 2) 0
        (some 1000) = some q → 0 ≤ q ∧ q ≤ 25 + 35 + 30 + 10) :=
  cost_function_range ⟨some 20, some 2, 0, some 1000⟩ ⟨25, 35, 30, 10⟩
    ⟨100, 20, 100, 1000⟩ ⟨25, 35, 30, 10, 100, 20, 1000⟩ (some 20) (some 2) 0
    (some 1000)
    (by norm_num) (by norm_num) (by norm_num) (by norm_num)
    (by norm_num) (by norm_num) (by norm_num) (by norm_num)
    (by intro q hq; obtain rfl : (20 : ℚ) = q := Option.some.inj hq; norm_num)
    (by intro q hq; obtain rfl : (2 : ℚ) = q := Option.some.inj hq; norm_num)
    (by norm_num)
    (by norm_num) (by norm_num) (by norm_num) (by norm_num)

/-- Counterexample to C1 as stated: at loss = 100 with finite latency
and jitter, `compute_qos_cost` returns the finite value 100, not `+∞`
(the claimed "+∞ iff loss ≥ 100 or non-finite latency/jitter" fails for
it); and `_calculate_cost` with the positive-sum weight vector
(200, 0, 0, 0) returns 200, outside `[0, 100] ∪ {+∞}`. -/
theorem cost_function_claim_cex :
    compute_qos_cost ⟨some 1, some 1, 100, none⟩ ⟨1, 1, 1, 1⟩ ⟨1, 1, 1, 1⟩ =
      some 100 ∧
    calculateCost ⟨200, 0, 0, 0, 100, 20, 1000⟩ (some 100) (some 0) 0 none =
      some 200 := by
  constructor <;> with_unfolding_all decide

/-! ## LSA-processing lemmas and claim theorems (C2, C3, C4) -/

/-- What `_process_lsa` does with an accepted LSA (nonempty origin,
sequence number above the stored one): the sequence number is stored,
and the re-flood happens exactly when the LSDB changed (the `recalc`
flag), going to every configured neighbour except the LSA's origin
with the TTL decremented. -/
theorem processLSA_accepted_spec (st : DaemonState) (msg : LSAMsg)
    (h0 : msg.router_id ≠ "")
    (h1 : (dlookup st.lsa_versions msg.router_id).getD (-1) < msg.seqnum) :
    dlookup (processLSA st msg).state.lsa_versions msg.router_id =
      some msg.seqnum ∧
    ((processLSA st msg).recalc = true → 0 < msg.hops →
      (processLSA st msg).sends =
        ((st.neighbors.map (fun p => p.1)).filter
          (fun n => n ≠ msg.router_id)).map
          (fun n => (n, { msg with hops := msg.hops - 1 }))) ∧
    ((processLSA st msg).recalc = false → (processLSA st msg).sends = []) ∧
    (msg.hops ≤ 0 → (processLSA st msg).sends = []) := by
  unfold processLSA
  dsimp only
  rw [if_neg h0, if_neg (not_le.mpr h1)]
  dsimp only
  refine ⟨dlookup_dinsert _ _ _, ?_, ?_, ?_⟩
  · intro hrc hh
    rw [if_pos ⟨of_decide_eq_true hrc, hh⟩]
  · intro hrc
    rw [if_neg (fun hc => of_decide_eq_false hrc hc.1)]
  · intro hh
    rw [if_neg (fun hc => absurd hc.2 (not_lt.mpr hh))]

/-- C4: an inbound LSA whose sequence number is at most the stored one
for its origin leaves the whole daemon state unchanged, sends nothing,
and does not trigger route recalculation. -/
theorem stale_lsa_noop (st : DaemonState) (msg : LSAMsg)
    (h : msg.seqnum ≤ (dlookup st.lsa_versions msg.router_id).getD (-1)) :
    processLSA st msg = ⟨st, [], false⟩ := by
  unfold processLSA
  dsimp only
  by_cases h0 : msg.router_id = ""
  · rw [if_pos h0]
  · rw [if_neg h0, if_pos h]

/-- Witness for C4: a duplicate LSA (seq 3 ≤ stored 5) is a no-op. -/
theorem stale_lsa_noop_witness :
    processLSA ⟨"r1", [("r2", ⟨0, some 1⟩)], [("r2", 5)], [("r1", [])], []⟩
        ⟨"r2", [("r1", some 7)], ["10.0.2.0/24"], 3, 8⟩ =
      ⟨⟨"r1", [("r2", ⟨0, some 1⟩)], [("r2", 5)], [("r1", [])], []⟩, [], false⟩ :=
  stale_lsa_noop ⟨"r1", [("r2", ⟨0, some 1⟩)], [("r2", 5)], [("r1", [])], []⟩
    ⟨"r2", [("r1", some 7)], ["10.0.2.0/24"], 3, 8⟩ (by decide)

/-- Counterexample to C2 as stated: an inbound LSA with TTL = 1 and a
higher sequence number that changes the topology IS re-flooded (to both
neighbours, with hops 0), because the code tests `hops > 0` before
decrementing; the claim says it must not be re-flooded. -/
theorem ttl_one_lsa_is_reflooded :
    (processLSA ⟨"r1", [("r2", ⟨0, some 1⟩), ("r3", ⟨0, some 1⟩)], [],
        [("r1", [])], []⟩ ⟨"r9", [("r3", some 5)], [], 1, 1⟩).sends =
      [("r2", ⟨"r9", [("r3", some 5)], [], 1, 0⟩),
        ("r3", ⟨"r9", [("r3", some 5)], [], 1, 0⟩)] ∧
    dlookup (processLSA ⟨"r1", [("r2", ⟨0, some 1⟩), ("r3", ⟨0, some 1⟩)], [],
        [("r1", [])], []⟩ ⟨"r9", [("r3", some 5)], [], 1, 1⟩).state.lsa_versions
      "r9" = some 1 := by
  constructor <;> with_unfolding_all decide

/-- C2 (amended): an inbound LSA arriving with TTL = 1 and a sequence
number above the stored one is stored, and it is re-flooded — with ttl
decremented to 0, to every neighbour except its origin — exactly when
it changed the LSDB (the condition reported by the `recalc` flag);
only when nothing changed is it stored without re-flooding. -/
theorem ttl_one_lsa_stored_spec (st : DaemonState) (msg : LSAMsg)
    (h0 : msg.router_id ≠ "")
    (h1 : (dlookup st.lsa_versions msg.router_id).getD (-1) < msg.seqnum)
    (h2 : msg.hops = 1) :
    dlookup (processLSA st msg).state.lsa_versions msg.router_id =
      some msg.seqnum ∧
    ((processLSA st msg).recalc = true →
      (processLSA st msg).sends =
        ((st.neighbors.map (fun p => p.1)).filter
          (fun n => n ≠ msg.router_id)).map
          (fun n => (n, { msg with hops := 0 }))) ∧
    ((processLSA st msg).recalc = false → (processLSA st msg).sends = []) := by
  obtain ⟨ha, hb, hc, -⟩ := processLSA_accepted_spec st msg h0 h1
  refine ⟨ha, ?_, hc⟩
  intro hrc
  have hs := hb hrc (by rw [h2]; norm_num)
  rw [hs]
  simp [h2]

/-- Witness for C2 (amended), at the TTL-1 topology-changing LSA. -/
theorem ttl_one_lsa_stored_spec_witness :
    dlookup (processLSA ⟨"r1", [("r2", ⟨0, some 1⟩), ("r3", ⟨0, some 1⟩)], [],
        [("r1", [])], []⟩ ⟨"r9", [("r3", some 5)], [], 1, 1⟩).state.lsa_versions
      "r9" = some 1 ∧
    ((processLSA ⟨"r1", [("r2", ⟨0, some 1⟩), ("r3", ⟨0, some 1⟩)], [],
        [("r1", [])], []⟩ ⟨"r9", [("r3", some 5)], [], 1, 1⟩).recalc = true →
      (processLSA ⟨"r1", [("r2", ⟨0, some 1⟩), ("r3", ⟨0, some 1⟩)], [],
        [("r1", [])], []⟩ ⟨"r9", [("r3", some 5)], [], 1, 1⟩).sends =
        ((([("r2", ⟨0, some 1⟩), ("r3", ⟨0, some 1⟩)] :
            List (String × NeighborEntry)).map (fun p => p.1)).filter
          (fun n => n ≠ (⟨"r9", [("r3", some 5)], [], 1, 1⟩ : LSAMsg).router_id)).map
          (fun n => (n, { (⟨"r9", [("r3", some 5)], [], 1, 1⟩ : LSAMsg) with
            hops := 0 }))) ∧
    ((processLSA ⟨"r1", [("r2", ⟨0, some 1⟩), ("r3", ⟨0, some 1⟩)], [],
        [("r1", [])], []⟩ ⟨"r9", [("r3", some 5)], [], 1, 1⟩).recalc = false →
      (processLSA ⟨"r1", [("r2", ⟨0, some 1⟩), ("r3", ⟨0, some 1⟩)], [],
        [("r1", [])], []⟩ ⟨"r9", [("r3", some 5)], [], 1, 1⟩).sends = []) :=
  ttl_one_lsa_stored_spec
    ⟨"r1", [("r2", ⟨0, some 1⟩), ("r3", ⟨0, some 1⟩)], [], [("r1", [])], []⟩
    ⟨"r9", [("r3", some 5)], [], 1, 1⟩ (by decide) (by decide) (by decide)

/-- Counterexample to C3 as stated: an accepted inbound LSA (seq 2 over
stored 1) with positive remaining TTL whose payload matches the stored
topology and prefixes is NOT re-flooded to anyone — the code refloods
only on change, while the claim demands re-flooding of every accepted
LSA.  (The code's exclusion is also keyed on the LSA's origin, not the
arrival source, which `_process_lsa` never receives.) -/
theorem accepted_lsa_without_change_silent :
    (processLSA ⟨"r1", [("r2", ⟨0, some 1⟩), ("r3", ⟨0, some 1⟩)],
        [("r2", 1)], [("r1", []), ("r2", [("r1", some 2)])],
        [("r2", {"10.0.2.0/24"})]⟩
      ⟨"r2", [("r1", some 2)], ["10.0.2.0/24"], 2, 5⟩).sends = [] ∧
    dlookup (processLSA ⟨"r1", [("r2", ⟨0, some 1⟩), ("r3", ⟨0, some 1⟩)],
        [("r2", 1)], [("r1", []), ("r2", [("r1", some 2)])],
        [("r2", {"10.0.2.0/24"})]⟩
      ⟨"r2", [("r1", some 2)], ["10.0.2.0/24"], 2, 5⟩).state.lsa_versions
      "r2" = some 2 := by
  constructor <;> with_unfolding_all decide

/-- C3 (amended): an accepted inbound LSA with positive incoming TTL is
re-flooded only when it changed the stored topology or prefix set; in
that case it goes to every configured neighbour except the LSA's
origin (the arrival source is not consulted), with ttl = incoming − 1;
and every message sent carries the decremented TTL and never targets
the origin. -/
theorem reflood_excludes_origin (st : DaemonState) (msg : LSAMsg)
    (h0 : msg.router_id ≠ "")
    (h1 : (dlookup st.lsa_versions msg.router_id).getD (-1) < msg.seqnum)
    (h2 : 0 < msg.hops) :
    ((processLSA st msg).recalc = true →
      (processLSA st msg).sends =
        ((st.neighbors.map (fun p => p.1)).filter
          (fun n => n ≠ msg.router_id)).map
          (fun n => (n, { msg with hops := msg.hops - 1 }))) ∧
    ((processLSA st msg).recalc = false → (processLSA st msg).sends = []) ∧
    (∀ p ∈ (processLSA st msg).sends,
      p.1 ≠ msg.router_id ∧ p.2.hops = msg.hops - 1) := by
  obtain ⟨-, hb, hc, -⟩ := processLSA_accepted_spec st msg h0 h1
  refine ⟨fun hrc => hb hrc h2, hc, ?_⟩
  intro p hp
  cases hrc : (processLSA st msg).recalc with
  | false =>
    rw [hc hrc] at hp
    simp at hp
  | true =>
    rw [hb hrc h2] at hp
    obtain ⟨n, hn, rfl⟩ := List.mem_map.mp hp
    have hflt := List.of_mem_filter hn
    exact ⟨by simpa using hflt, rfl⟩

/-- Witness for C3 (amended), at the topology-changing LSA with TTL 5. -/
theorem reflood_excludes_origin_witness :
    (((processLSA ⟨"r1", [("r2", ⟨0, some 1⟩), ("r3", ⟨0, some 1⟩)], [],
        [("r1", [])], []⟩ ⟨"r9", [("r3", some 5)], [], 1, 5⟩).recalc = true →
      (processLSA ⟨"r1", [("r2", ⟨0, some 1⟩), ("r3", ⟨0, some 1⟩)], [],
        [("r1", [])], []⟩ ⟨"r9", [("r3", some 5)], [], 1, 5⟩).sends =
        ((([("r2", ⟨0, some 1⟩), ("r3", ⟨0, some 1⟩)] :
            List (String × NeighborEntry)).map (fun p => p.1)).filter
          (fun n => n ≠ (⟨"r9", [("r3", some 5)], [], 1, 5⟩ : LSAMsg).router_id)).map
          (fun n => (n, { (⟨"r9", [("r3", some 5)], [], 1, 5⟩ : LSAMsg) with
            hops := (⟨"r9", [("r3", some 5)], [], 1, 5⟩ : LSAMsg).hops - 1 })))) ∧
    ((processLSA ⟨"r1", [("r2", ⟨0, some 1⟩), ("r3", ⟨0, some 1⟩)], [],
        [("r1", [])], []⟩ ⟨"r9", [("r3", some 5)], [], 1, 5⟩).recalc = false →
      (processLSA ⟨"r1", [("r2", ⟨0, some 1⟩), ("r3", ⟨0, some 1⟩)], [],
        [("r1", [])], []⟩ ⟨"r9", [("r3", some 5)], [], 1, 5⟩).sends = []) ∧
    (∀ p ∈ (processLSA ⟨"r1", [("r2", ⟨0, some 1⟩), ("r3", ⟨0, some 1⟩)], [],
        [("r1", [])], []⟩ ⟨"r9", [("r3", some 5)], [], 1, 5⟩).sends,
      p.1 ≠ (⟨"r9", [("r3", some 5)], [], 1, 5⟩ : LSAMsg).router_id ∧
        p.2.hops = (⟨"r9", [("r3", some 5)], [], 1, 5⟩ : LSAMsg).hops - 1) :=
  reflood_excludes_origin
    ⟨"r1", [("r2", ⟨0, some 1⟩), ("r3", ⟨0, some 1⟩)], [], [("r1", [])], []⟩
    ⟨"r9", [("r3", some 5)], [], 1, 5⟩ (by decide) (by decide) (by decide)

/-! ## Dead-interval lemmas and claim theorems (C8) -/

theorem dlookup_derase_none {α : Type} (l : List (String × α)) (k : String)
    {y : String} (h : dlookup l y = none) : dlookup (derase l k) y = none := by
  by_cases hyk : y = k
  · rw [hyk]; exact dlookup_derase_self l k
  · rw [dlookup_derase_ne l hyk]; exact h

theorem dlookup_edgeDel (g : List (String × List (String × Option ℚ)))
    (a b x : String) :
    dlookup (edgeDel g a b) x =
      if x = a then (dlookup g a).map (fun adj => derase adj b)
      else dlookup g x := by
  unfold edgeDel dlookup
  induction g with
  | nil => simp
  | cons p g ih =>
    by_cases hpa : (p.1 == a) = true
    · have hpa2 : p.1 = a := by simpa using hpa
      by_cases hxa : x = a
      · subst hxa
        simp [List.find?, hpa, hpa2]
      · have hpx : (p.1 == x) = false := by
          simp [beq_iff_eq, hpa2]; exact fun hax => hxa hax.symm
        simp only [List.map_cons, hpa, if_pos, List.find?, hpx]
        simpa [hxa] using ih
    · have hpa2 : ¬ p.1 = a := by simpa using hpa
      by_cases hpx : (p.1 == x) = true
      · have hpx2 : p.1 = x := by simpa using hpx
        have hxa : ¬ x = a := by rw [← hpx2]; exact hpa2
        simp [List.find?, hpa, hpx, hxa]
      · simp only [List.map_cons, hpa, if_neg, Bool.false_eq_true,
          not_false_iff, List.find?, hpx]
        simpa using ih

theorem edgeCost_edgeDel_self (g : List (String × List (String × Option ℚ)))
    (a b : String) : edgeCost (edgeDel g a b) a b = none := by
  unfold edgeCost
  rw [dlookup_edgeDel, if_pos rfl]
  cases dlookup g a with
  | none => simp [dlookup]
  | some adj => simpa using dlookup_derase_self adj b

theorem edgeCost_edgeDel_none {g : List (String × List (String × Option ℚ))}
    {x y : String} (a b : String) (h : edgeCost g x y = none) :
    edgeCost (edgeDel g a b) x y = none := by
  unfold edgeCost at h ⊢
  rw [dlookup_edgeDel]
  by_cases hxa : x = a
  · subst hxa
    cases hg : dlookup g x with
    | none => simp [dlookup]
    | some adj =>
      rw [hg] at h
      simp only [Option.getD_some] at h
      simpa using dlookup_derase_none adj b h
  · rw [if_neg hxa]; exact h

theorem deadStep_preserves (rid : String) (now : ℚ) (acc : DaemonState × Bool)
    (entry : String × NeighborEntry) :
    (deadStep rid now acc entry).1.router_id = acc.1.router_id ∧
    (deadStep rid now acc entry).1.lsa_versions = acc.1.lsa_versions ∧
    (deadStep rid now acc entry).1.lsdb_prefixes = acc.1.lsdb_prefixes := by
  unfold deadStep
  dsimp only
  split_ifs <;> exact ⟨rfl, rfl, rfl⟩

theorem deadStep_edge_none {rid : String} {now : ℚ} {acc : DaemonState × Bool}
    {entry : String × NeighborEntry} {x y : String}
    (h : edgeCost acc.1.topology_graph x y = none) :
    edgeCost (deadStep rid now acc entry).1.topology_graph x y = none := by
  unfold deadStep
  dsimp only
  split_ifs
  all_goals
    first
      | exact h
      | exact edgeCost_edgeDel_none _ _ h
      | exact edgeCost_edgeDel_none _ _ (edgeCost_edgeDel_none _ _ h)

theorem deadStep_kills_edges {rid : String} {now : ℚ} {acc : DaemonState × Bool}
    {nid : String} {e : NeighborEntry}
    (hdead : DEAD_INTERVAL < now - e.last_hello) :
    edgeCost (deadStep rid now acc (nid, e)).1.topology_graph rid nid = none ∧
    edgeCost (deadStep rid now acc (nid, e)).1.topology_graph nid rid = none := by
  unfold deadStep
  dsimp only
  rw [if_pos hdead]
  split_ifs with hg1 hg2 hg2
  · exact ⟨edgeCost_edgeDel_none _ _ (edgeCost_edgeDel_self _ _ _),
      edgeCost_edgeDel_self _ _ _⟩
  · refine ⟨edgeCost_edgeDel_self _ _ _, ?_⟩
    unfold edgeCost
    exact Option.not_isSome_iff_eq_none.mp (by simpa using hg2)
  · refine ⟨?_, edgeCost_edgeDel_self _ _ _⟩
    refine edgeCost_edgeDel_none _ _ ?_
    unfold edgeCost
    exact Option.not_isSome_iff_eq_none.mp (by simpa using hg1)
  · refine ⟨?_, ?_⟩ <;> unfold edgeCost <;>
      exact Option.not_isSome_iff_eq_none.mp (by simp_all)

theorem deadFold_preserves (rid : String) (now : ℚ)
    (l : List (String × NeighborEntry)) (acc : DaemonState × Bool) :
    (l.foldl (deadStep rid now) acc).1.router_id = acc.1.router_id ∧
    (l.foldl (deadStep rid now) acc).1.lsa_versions = acc.1.lsa_versions ∧
    (l.foldl (deadStep rid now) acc).1.lsdb_prefixes = acc.1.lsdb_prefixes := by
  induction l generalizing acc with
  | nil => exact ⟨rfl, rfl, rfl⟩
  | cons e l ih =>
    simp only [List.foldl_cons]
    obtain ⟨ha, hb, hc⟩ := ih (deadStep rid now acc e)
    obtain ⟨da, db, dc⟩ := deadStep_preserves rid now acc e
    exact ⟨ha.trans da, hb.trans db, hc.trans dc⟩

theorem deadFold_edge_none (rid : String) (now : ℚ)
    (l : List (String × NeighborEntry)) (acc : DaemonState × Bool)
    {x y : String} (h : edgeCost acc.1.topology_graph x y = none) :
    edgeCost ((l.foldl (deadStep rid now) acc).1.topology_graph) x y = none := by
  induction l generalizing acc with
  | nil => exact h
  | cons e l ih =>
    simp only [List.foldl_cons]
    exact ih (deadStep rid now acc e) (deadStep_edge_none h)

theorem deadFold_kills (rid : String) (now : ℚ)
    (l : List (String × NeighborEntry)) (acc : DaemonState × Bool)
    {nid : String} {e : NeighborEntry} (hmem : (nid, e) ∈ l)
    (hdead : DEAD_INTERVAL < now - e.last_hello) :
    edgeCost ((l.foldl (deadStep rid now) acc).1.topology_graph) rid nid = none ∧
    edgeCost ((l.foldl (deadStep rid now) acc).1.topology_graph) nid rid = none := by
  induction l generalizing acc with
  | nil => simp at hmem
  | cons p l ih =>
    simp only [List.foldl_cons]
    rcases List.mem_cons.mp hmem with hp | hp
    · subst hp
      obtain ⟨h1, h2⟩ := @deadStep_kills_edges rid now acc nid e hdead
      exact ⟨deadFold_edge_none rid now l _ h1, deadFold_edge_none rid now l _ h2⟩
    · exact ih (deadStep rid now acc p) hp

/-- C8 (amended): one pass of `_dead_interval_loop` ages neighbour
adjacencies, not LSDB entries: it never touches `lsdb_prefixes` or
`lsa_versions` (so no entry of any age is ever purged, and in
particular the self entry is untouched), while every neighbour silent
for more than `DEAD_INTERVAL` (20 s) has both its topology edges
removed; a pass that removed an edge reports it, and the daemon then
recomputes routes and floods an LSA. -/
theorem dead_pass_ages_neighbors_not_lsdb (now : ℚ) (st : DaemonState) :
    (deadPass now st).1.router_id = st.router_id ∧
    (deadPass now st).1.lsa_versions = st.lsa_versions ∧
    (deadPass now st).1.lsdb_prefixes = st.lsdb_prefixes ∧
    (∀ nid e, (nid, e) ∈ st.neighbors →
      DEAD_INTERVAL < now - e.last_hello →
      edgeCost (deadPass now st).1.topology_graph st.router_id nid = none ∧
      edgeCost (deadPass now st).1.topology_graph nid st.router_id = none) := by
  unfold deadPass
  obtain ⟨ha, hb, hc⟩ := deadFold_preserves st.router_id now st.neighbors (st, false)
  refine ⟨ha, hb, hc, ?_⟩
  intro nid e hmem hdead
  exact deadFold_kills st.router_id now st.neighbors (st, false) hmem hdead

/-- Witness for C8 (amended): at `now = 100`, the neighbour silent
since 0 loses both edges while the LSDB is untouched. -/
theorem dead_pass_ages_neighbors_not_lsdb_witness :
    (deadPass 100 ⟨"r1", [("r2", ⟨0, some 3⟩)], [("r9", 3)],
        [("r1", [("r2", some 3)]), ("r2", [("r1", some 3)])],
        [("r9", {"10.0.9.0/24"})]⟩).1.lsdb_prefixes =
      [("r9", {"10.0.9.0/24"})] ∧
    edgeCost (deadPass 100 ⟨"r1", [("r2", ⟨0, some 3⟩)], [("r9", 3)],
        [("r1", [("r2", some 3)]), ("r2", [("r1", some 3)])],
        [("r9", {"10.0.9.0/24"})]⟩).1.topology_graph "r1" "r2" = none :=
  ⟨(dead_pass_ages_neighbors_not_lsdb 100
      ⟨"r1", [("r2", ⟨0, some 3⟩)], [("r9", 3)],
        [("r1", [("r2", some 3)]), ("r2", [("r1", some 3)])],
        [("r9", {"10.0.9.0/24"})]⟩).2.2.1,
    ((dead_pass_ages_neighbors_not_lsdb 100
      ⟨"r1", [("r2", ⟨0, some 3⟩)], [("r9", 3)],
        [("r1", [("r2", some 3)]), ("r2", [("r1", some 3)])],
        [("r9", {"10.0.9.0/24"})]⟩).2.2.2 "r2" ⟨0, some 3⟩
      (by decide) (by with_unfolding_all decide)).1⟩

/-- Counterexample to C8 as stated: the code stores no `received_at`
and its background pass never removes any LSDB entry.  At wall-clock
time 100000 the non-self entry for "r9" (present since time 0, hence
older than any aging threshold) is still in `lsdb_prefixes` and
`lsa_versions` after the pass. -/
theorem lsdb_aging_claim_cex :
    (deadPass 100000 ⟨"r1", [("r2", ⟨99999, some 3⟩)], [("r9", 3)],
        [("r1", [("r2", some 3)]), ("r2", [("r1", some 3)])],
        [("r9", {"10.0.9.0/24"})]⟩).1.lsdb_prefixes =
      [("r9", {"10.0.9.0/24"})] ∧
    (deadPass 100000 ⟨"r1", [("r2", ⟨99999, some 3⟩)], [("r9", 3)],
        [("r1", [("r2", some 3)]), ("r2", [("r1", some 3)])],
        [("r9", {"10.0.9.0/24"})]⟩).1.lsa_versions = [("r9", 3)] := by
  constructor <;> with_unfolding_all decide

/-! ## FIB-reconciliation lemmas (C6, C7) -/

theorem dlookup_isSome_find {α : Type} (l : List (String × α)) (k : String) :
    (dlookup l k).isSome = (l.find? (fun p => p.1 == k)).isSome := by
  unfold dlookup
  cases l.find? (fun p => p.1 == k) <;> rfl

theorem dkeys_dinsert {α : Type} (l : List (String × α)) (k : String) (v : α) :
    dkeys (dinsert l k v) =
      if (dlookup l k).isSome then dkeys l else dkeys l ++ [k] := by
  rw [dlookup_isSome_find]
  unfold dinsert dkeys
  split_ifs with h
  · rw [List.map_map]
    refine List.map_congr_left ?_
    intro p hp
    by_cases hpk : (p.1 == k) = true
    · have : p.1 = k := by simpa using hpk
      simp [Function.comp, hpk, this]
    · simp [Function.comp, hpk]
  · simp

theorem dlookup_eq_none_iff {α : Type} (l : List (String × α)) (k : String) :
    dlookup l k = none ↔ k ∉ dkeys l := by
  unfold dlookup dkeys
  induction l with
  | nil => simp
  | cons p l ih =>
    by_cases hpk : (p.1 == k) = true
    · have hpk2 : p.1 = k := by simpa using hpk
      simp [List.find?, hpk, hpk2]
    · have hpk2 : ¬ p.1 = k := by simpa using hpk
      simp only [List.find?, hpk, List.map_cons, List.mem_cons]
      rw [ih, not_or]
      constructor
      · intro h
        exact ⟨fun hk => hpk2 hk.symm, h⟩
      · intro h
        exact h.2

theorem dkeys_dinsert_mem {α : Type} {l : List (String × α)} {k q : String}
    {v : α} (hq : q ∈ dkeys (dinsert l k v)) : q ∈ dkeys l ∨ q = k := by
  rw [dkeys_dinsert] at hq
  split_ifs at hq with h
  · exact Or.inl hq
  · rcases List.mem_append.mp hq with h2 | h2
    · exact Or.inl h2
    · exact Or.inr (by simpa using h2)

theorem dkeys_dinsert_nodup {α : Type} {l : List (String × α)} (k : String)
    (v : α) (h : (dkeys l).Nodup) : (dkeys (dinsert l k v)).Nodup := by
  rw [dkeys_dinsert]
  split_ifs with hs
  · exact h
  · have hk : k ∉ dkeys l := by
      rw [← dlookup_eq_none_iff]
      exact Option.not_isSome_iff_eq_none.mp (by simpa using hs)
    rw [List.nodup_append]
    refine ⟨h, List.nodup_singleton k, ?_⟩
    intro a ha hb
    rw [List.mem_singleton] at hb
    exact hk (hb ▸ ha)

/-- The inner prefix loop building `desired_prefixes` keeps the key set
duplicate-free and local-prefix-free. -/
theorem desiredInner_inv (env : SyncEnv) (nhIp : String) (pfxs : List String)
    (acc : List (String × String)) (hnd : (dkeys acc).Nodup)
    (hloc : ∀ p ∈ dkeys acc, p ∉ env.local_prefixes) :
    (dkeys (pfxs.foldl (fun acc2 pfx =>
        if pfx ∈ env.local_prefixes then acc2 else dinsert acc2 pfx nhIp)
      acc)).Nodup ∧
    ∀ p ∈ dkeys (pfxs.foldl (fun acc2 pfx =>
        if pfx ∈ env.local_prefixes then acc2 else dinsert acc2 pfx nhIp)
      acc), p ∉ env.local_prefixes := by
  induction pfxs generalizing acc with
  | nil => exact ⟨hnd, hloc⟩
  | cons q rest ih =>
    simp only [List.foldl_cons]
    by_cases hq : q ∈ env.local_prefixes
    · rw [if_pos hq]
      exact ih acc hnd hloc
    · rw [if_neg hq]
      refine ih (dinsert acc q nhIp) (dkeys_dinsert_nodup q nhIp hnd) ?_
      intro p hp
      rcases dkeys_dinsert_mem hp with h | rfl
      · exact hloc p h
      · exact hq

/-- Dict `desired_prefixes` has duplicate-free keys and excludes every local
prefix. -/
theorem desiredPrefixes_inv (env : SyncEnv) (nr : List (String × String)) :
    (dkeys (desiredPrefixes env nr)).Nodup ∧
    ∀ p ∈ dkeys (desiredPrefixes env nr), p ∉ env.local_prefixes := by
  unfold desiredPrefixes
  have main : ∀ (l : List (String × String)) (acc : List (String × String)),
      (dkeys acc).Nodup → (∀ p ∈ dkeys acc, p ∉ env.local_prefixes) →
      (dkeys (l.foldl (fun acc dr =>
          if dr.1 = env.router_id then acc
          else
            match resolveNextHopIp env dr.2 with
            | none => acc
            | some nhIp =>
              (resolveRouterPrefixes env dr.1).foldl (fun acc2 pfx =>
                if pfx ∈ env.local_prefixes then acc2
                else dinsert acc2 pfx nhIp) acc) acc)).Nodup ∧
      ∀ p ∈ dkeys (l.foldl (fun acc dr =>
          if dr.1 = env.router_id then acc
          else
            match resolveNextHopIp env dr.2 with
            | none => acc
            | some nhIp =>
              (resolveRouterPrefixes env dr.1).foldl (fun acc2 pfx =>
                if pfx ∈ env.local_prefixes then acc2
                else dinsert acc2 pfx nhIp) acc) acc),
        p ∉ env.local_prefixes := by
    intro l
    induction l with
    | nil => intro acc h1 h2; exact ⟨h1, h2⟩
    | cons dr rest ih =>
      intro acc h1 h2
      simp only [List.foldl_cons]
      by_cases hdr : dr.1 = env.router_id
      · rw [if_pos hdr]
        exact ih acc h1 h2
      · rw [if_neg hdr]
        cases hnh : resolveNextHopIp env dr.2 with
        | none => exact ih acc h1 h2
        | some nhIp =>
          obtain ⟨h3, h4⟩ := desiredInner_inv env nhIp
            (resolveRouterPrefixes env dr.1) acc h1 h2
          exact ih _ h3 h4
  exact main nr [] (by simp [dkeys]) (by simp [dkeys])

theorem installPhase_lookup_notkey (ds : List (String × String))
    (inst : List (String × String)) {p : String}
    (hp : p ∉ ds.map (fun x => x.1)) :
    dlookup (installPhase ds inst).2 p = dlookup inst p := by
  induction ds generalizing inst with
  | nil => rfl
  | cons pr rest ih =>
    have hsplit : p ≠ pr.1 ∧ p ∉ rest.map (fun x => x.1) := by
      constructor
      · intro hpq
        exact hp (by simp [hpq])
      · intro hmem
        exact hp (by simp [hmem])
    obtain ⟨pfx2, nh2⟩ := pr
    unfold installPhase
    dsimp only
    split_ifs with h1 h2
    · exact ih inst hsplit.2
    all_goals
      dsimp only
      rw [ih (dinsert inst pfx2 nh2) hsplit.2,
        dlookup_dinsert_ne inst nh2 hsplit.1]

theorem installPhase_lookup (ds : List (String × String))
    (inst : List (String × String))
    (hnd : (ds.map (fun x => x.1)).Nodup) {p nh : String}
    (hmem : (p, nh) ∈ ds) :
    dlookup (installPhase ds inst).2 p = some nh := by
  induction ds generalizing inst with
  | nil => simp at hmem
  | cons pr rest ih =>
    obtain ⟨pfx2, nh2⟩ := pr
    rw [List.map_cons] at hnd
    obtain ⟨hnotin0, hndrest⟩ := List.nodup_cons.mp hnd
    rcases List.mem_cons.mp hmem with hh | hh
    · have hpe : p = pfx2 ∧ nh = nh2 := by simpa [Prod.ext_iff] using hh
      obtain ⟨rfl, rfl⟩ := hpe
      unfold installPhase
      dsimp only
      split_ifs with h1 h2
      · rw [installPhase_lookup_notkey rest inst hnotin0]
        exact h1
      all_goals
        dsimp only
        rw [installPhase_lookup_notkey rest (dinsert inst p nh) hnotin0,
          dlookup_dinsert]
    · unfold installPhase
      dsimp only
      split_ifs with h1 h2
      · exact ih inst hndrest hh
      all_goals
        dsimp only
        exact ih (dinsert inst pfx2 nh2) hndrest hh

theorem installPhase_keys (ds : List (String × String))
    (inst : List (String × String)) {q : String}
    (hq : q ∈ dkeys (installPhase ds inst).2) :
    q ∈ dkeys inst ∨ q ∈ ds.map (fun x => x.1) := by
  induction ds generalizing inst with
  | nil => exact Or.inl hq
  | cons pr rest ih =>
    obtain ⟨pfx2, nh2⟩ := pr
    unfold installPhase at hq
    dsimp only at hq
    split_ifs at hq with h1 h2
    · rcases ih inst hq with h | h
      · exact Or.inl h
      · exact Or.inr (by simp [h])
    all_goals
      dsimp only at hq
      rcases ih (dinsert inst pfx2 nh2) hq with h | h
      · rcases dkeys_dinsert_mem h with h2a | h2a
        · exact Or.inl h2a
        · exact Or.inr (by simp [h2a])
      · exact Or.inr (by simp [h])

theorem installPhase_skip (ds : List (String × String))
    (inst : List (String × String))
    (h : ∀ pr ∈ ds, dlookup inst pr.1 = some pr.2) :
    installPhase ds inst = ([], inst) := by
  induction ds with
  | nil => rfl
  | cons pr rest ih =>
    obtain ⟨pfx2, nh2⟩ := pr
    unfold installPhase
    dsimp only
    rw [if_pos (h (pfx2, nh2) (List.mem_cons_self _ _))]
    exact ih (fun pr2 hpr2 => h pr2 (List.mem_cons_of_mem _ hpr2))

theorem removePhase_keys (localPfxs dk snap : List String)
    (inst : List (String × String)) {p : String}
    (hp : p ∈ dkeys (removePhase localPfxs dk snap inst).2) :
    p ∈ dk ∨ (p ∈ dkeys inst ∧ p ∉ snap) := by
  induction snap generalizing inst with
  | nil => exact Or.inr ⟨hp, by simp⟩
  | cons q rest ih =>
    unfold removePhase at hp
    split_ifs at hp with h1 h2 h3
    · rcases ih inst hp with h | ⟨hi, hs⟩
      · exact Or.inl h
      · by_cases hpq : p = q
        · exact Or.inl (hpq ▸ h1)
        · exact Or.inr ⟨hi, by simp [hpq, hs]⟩
    · rcases ih (derase inst q) hp with h | ⟨hi, hs⟩
      · exact Or.inl h
      · obtain ⟨hi2, hne⟩ := mem_keys_derase hi
        exact Or.inr ⟨hi2, by simp [hne, hs]⟩
    · dsimp only at hp
      rcases ih (derase inst q) hp with h | ⟨hi, hs⟩
      · exact Or.inl h
      · obtain ⟨hi2, hne⟩ := mem_keys_derase hi
        exact Or.inr ⟨hi2, by simp [hne, hs]⟩
    · rcases ih inst hp with h | ⟨hi, hs⟩
      · exact Or.inl h
      · have hq : q ∉ dkeys inst := by
          rw [← dlookup_eq_none_iff]
          exact Option.not_isSome_iff_eq_none.mp (by simpa using h3)
        have hpq : p ≠ q := fun hpq => hq (hpq ▸ hi)
        exact Or.inr ⟨hi, by simp [hpq, hs]⟩

theorem removePhase_lookup (localPfxs dk snap : List String)
    (inst : List (String × String)) {p : String} (hp : p ∈ dk) :
    dlookup (removePhase localPfxs dk snap inst).2 p = dlookup inst p := by
  induction snap generalizing inst with
  | nil => rfl
  | cons q rest ih =>
    unfold removePhase
    split_ifs with h1 h2 h3
    · exact ih inst
    · have hpq : p ≠ q := fun hpq => h1 (hpq ▸ hp)
      rw [ih (derase inst q), dlookup_derase_ne inst hpq]
    · dsimp only
      have hpq : p ≠ q := fun hpq => h1 (hpq ▸ hp)
      rw [ih (derase inst q), dlookup_derase_ne inst hpq]
    · exact ih inst

theorem removePhase_skip (localPfxs dk snap : List String)
    (inst : List (String × String)) (h : ∀ p ∈ snap, p ∈ dk) :
    removePhase localPfxs dk snap inst = ([], inst) := by
  induction snap with
  | nil => rfl
  | cons q rest ih =>
    unfold removePhase
    rw [if_pos (h q (List.mem_cons_self _ _))]
    exact ih (fun p hp => h p (List.mem_cons_of_mem _ hp))

/-- C6: FIB reconciliation is idempotent.  For every environment,
starting `installed_routes` table and routing table, running
`_synchronise_kernel_routes` a second time with the same inputs right
after a first run in which every FIB command succeeded issues zero FIB
operations. -/
theorem sync_idempotent (env : SyncEnv) (inst0 nr : List (String × String)) :
    (syncRoutes env (syncRoutes env inst0 nr).2 nr).1 = [] := by
  obtain ⟨hnd, -⟩ := desiredPrefixes_inv env nr
  have hinst1 : (syncRoutes env inst0 nr).2 =
      (removePhase env.local_prefixes
        ((desiredPrefixes env nr).map (fun p => p.1))
        (((installPhase (desiredPrefixes env nr) inst0).2).map (fun p => p.1))
        (installPhase (desiredPrefixes env nr) inst0).2).2 := rfl
  have hlk : ∀ pr ∈ desiredPrefixes env nr,
      dlookup (syncRoutes env inst0 nr).2 pr.1 = some pr.2 := by
    intro pr hpr
    rw [hinst1]
    rw [removePhase_lookup _ _ _ _ (List.mem_map_of_mem (fun p => p.1) hpr)]
    exact installPhase_lookup (desiredPrefixes env nr) inst0 hnd
      (Prod.mk.eta ▸ hpr)
  have hkeys : ∀ p ∈ dkeys (syncRoutes env inst0 nr).2,
      p ∈ (desiredPrefixes env nr).map (fun q => q.1) := by
    intro p hp
    rw [hinst1] at hp
    rcases removePhase_keys _ _ _ _ hp with h | ⟨hi, hs⟩
    · exact h
    · exact absurd hi hs
  have hskip1 : installPhase (desiredPrefixes env nr)
      (syncRoutes env inst0 nr).2 = ([], (syncRoutes env inst0 nr).2) :=
    installPhase_skip _ _ hlk
  have hskip2 : removePhase env.local_prefixes
      ((desiredPrefixes env nr).map (fun p => p.1))
      (((syncRoutes env inst0 nr).2).map (fun p => p.1))
      (syncRoutes env inst0 nr).2 = ([], (syncRoutes env inst0 nr).2) :=
    removePhase_skip _ _ _ _ hkeys
  show (installPhase (desiredPrefixes env nr) (syncRoutes env inst0 nr).2).1 ++
      (removePhase env.local_prefixes
        ((desiredPrefixes env nr).map (fun p => p.1))
        (((installPhase (desiredPrefixes env nr)
          (syncRoutes env inst0 nr).2).2).map (fun p => p.1))
        (installPhase (desiredPrefixes env nr)
          (syncRoutes env inst0 nr).2).2).1 = []
  rw [hskip1]
  dsimp only
  rw [hskip2]
  rfl

/-- C7: in every reachable `installed_routes` state (it starts empty
and is only modified by reconciliations and by the pops of
`_remove_installed_route` / `_flush_routes`), no prefix of the
router's local prefix list is present: reconciliation excludes local
prefixes from the desired set and removes any that slipped in. -/
theorem no_local_prefix_installed (env : SyncEnv)
    (inst : List (String × String)) (h : InstalledReach env inst)
    (pfx : String) (hmem : pfx ∈ dkeys inst) :
    pfx ∉ env.local_prefixes := by
  induction h with
  | init => simp [dkeys] at hmem
  | sync inst2 nr2 h2 ih =>
    obtain ⟨-, hloc⟩ := desiredPrefixes_inv env nr2
    have hsync : (syncRoutes env inst2 nr2).2 =
        (removePhase env.local_prefixes
          ((desiredPrefixes env nr2).map (fun p => p.1))
          (((installPhase (desiredPrefixes env nr2) inst2).2).map
            (fun p => p.1))
          (installPhase (desiredPrefixes env nr2) inst2).2).2 := rfl
    rw [hsync] at hmem
    rcases removePhase_keys _ _ _ _ hmem with hd | ⟨hi, hs⟩
    · exact hloc pfx hd
    · exact absurd hi hs
  | removeOne inst2 p2 h2 ih =>
    obtain ⟨hm2, -⟩ := mem_keys_derase hmem
    exact ih hm2

/-- Witness for C7: after one reconciliation installing the announced
remote prefix 10.0.9.0/24, that installed prefix is not local. -/
theorem no_local_prefix_installed_witness :
    "10.0.9.0/24" ∉ (⟨"r1", ["10.0.1.0/24"], [("r2", "10.0.2.2")],
      [("r2", "10.0.2.2")], [("r3", {"10.0.9.0/24"})]⟩ : SyncEnv).local_prefixes :=
  no_local_prefix_installed
    ⟨"r1", ["10.0.1.0/24"], [("r2", "10.0.2.2")], [("r2", "10.0.2.2")],
      [("r3", {"10.0.9.0/24"})]⟩
    _
    (InstalledReach.sync [] [("r3", "r2")] InstalledReach.init)
    "10.0.9.0/24" (by with_unfolding_all decide)

end OspfGaming
